import Mathlib

/-!
Verification of the EthioScan discovery-and-probe pipeline (crawler, payload
catalog, test-case generator / fuzzer, response classifier) against its
natural-language specification.

Python strings are modelled as `List Char` (`Str`).  The classifier
(`src/scanner.py`), the payload catalog (`src/ethioscan/payloads.py`), the
test-case generator (`src/ethioscan/fuzzer.py`) and the two crawler revisions
(`src/ethioscan/crawler.py`, `src/crawler.py`) are embedded as executable
functions, together with a model of the parts of Python's `urllib.parse`
library the repository calls (`urlparse`, `urlunparse`, `urljoin`,
`parse_qs`, `urlencode`, `quote_plus`, `unquote_plus`).
-/

set_option maxRecDepth 40000

namespace EthioScan

/-- Python strings are modelled as lists of Unicode characters. -/
abbrev Str := List Char

/-- Convert a Lean string literal to the model representation. -/
def chars (s : String) : Str := s.toList

/-- The single-quote character U+0027. -/
def sq : Char := Char.ofNat 39

/-- Python `str.lower()` restricted to ASCII (the repository only compares
ASCII signature strings). -/
def lowerStr (l : Str) : Str := l.map Char.toLower

/-- Python `str.upper()` restricted to ASCII. -/
def upperStr (l : Str) : Str := l.map Char.toUpper

/-- Helper for Python `str.find`: first index at or after `i` where `pat`
occurs in the remaining haystack. -/
def findSubAux (pat : Str) : Nat → Str → Option Nat
  | i, [] => if pat = [] then some i else none
  | i, c :: cs => if pat.isPrefixOf (c :: cs) then some i else findSubAux pat (i + 1) cs

/-- Python `pat in hay` for strings (substring containment). -/
def hasSub (pat hay : Str) : Bool := (findSubAux pat 0 hay).isSome

/-- Python's ASCII whitespace class (used by `str.strip` and `\s` on the
ASCII inputs the scanner handles). -/
def wsChar (c : Char) : Bool :=
  c == ' ' || c == '\t' || c == '\n' || c == '\x0d' || c == '\x0b' || c == '\x0c'

/-- `\w` word characters (ASCII letters, digits, underscore). -/
def wordChar (c : Char) : Bool := c.isAlphanum || c == '_'

/-- Python `str.strip()` (ASCII whitespace). -/
def trimWs (l : Str) : Str := ((l.dropWhile wsChar).reverse.dropWhile wsChar).reverse

/-- Regex search: some suffix of the input matches the anchored matcher `p`
(Python `re.search` tries every start offset). -/
def searchPos (p : Str → Bool) : Str → Bool
  | [] => p []
  | c :: cs => p (c :: cs) || searchPos p cs

/-! ## Response classifier (`src/scanner.py`, class `Scanner`)

The classifier's rule tables are fixed at construction (`Scanner.__init__`);
the `fast` flag is never read by the analysis methods, so the embedding is a
set of plain functions.  The bodies handed to the detection helpers are
already lowercased (`analyze_response` line 78), so the `re.IGNORECASE`
patterns are embedded as matchers for their lowercase spelling. -/

/-- `Scanner.sqli_keywords` (scanner.py lines 20-27). -/
def sqliKeywords : List Str :=
  [chars "syntax error", chars "mysql", chars "ora-00933", chars "postgres", chars "sqlstate",
   chars "sql syntax", chars "database error", chars "sql error", chars "query failed",
   chars "mysql_fetch", chars "postgresql", chars "oracle", chars "sqlite", chars "mssql",
   chars "sql server", chars "access denied", chars "invalid query", chars "sql exception",
   chars "database connection", chars "sql command", chars "sqlite3", chars "mysqli",
   chars "pg_query", chars "oci_parse", chars "sqlite_error", chars "mssql_query"]

/-- The three boolean-tautology strings of `Scanner.detect_sqli`
(scanner.py line 142). -/
def sqliTautologies : List Str :=
  [sq :: chars " or " ++ [sq, '1', sq, '=', sq, '1'],
   chars "\" or \"1\"=\"1",
   chars " or 1=1"]

/-- `Scanner.error_keywords` (scanner.py lines 41-46). -/
def errorKeywords : List Str :=
  [chars "error", chars "exception", chars "warning", chars "fatal", chars "critical",
   chars "failed", chars "failure", chars "invalid", chars "unauthorized", chars "forbidden",
   chars "not found", chars "internal server error", chars "bad request",
   chars "service unavailable", chars "timeout", chars "connection refused"]

/-- `Scanner.trace_signatures` (scanner.py lines 59-66). -/
def traceSignatures : List Str :=
  [chars "traceback (most recent call last)",
   chars "exception in thread",
   chars "at org.",
   chars "java.lang.",
   chars "file \"",
   chars "stack trace"]

/-- Anchored matcher for the regex `<script[^>]*>.*?</script>`: after the
literal `<script`, `[^>]*` can only stop at the first `>`, and the lazy
`.*?</script>` under search semantics just requires a later `</script>`. -/
def skipToGt (k : Str → Bool) : Str → Bool
  | [] => false
  | c :: cs => if c == '>' then k cs else skipToGt k cs

/-- Anchored matcher for `<script[^>]*>.*?</script>`. -/
def matchScriptTagAt (l : Str) : Bool :=
  (chars "<script").isPrefixOf l && skipToGt (fun r => hasSub (chars "</script>") r) (l.drop 7)

/-- The characters before the first `>`, or `none` when there is no `>`. -/
def uptoGt : Str → Option Str
  | [] => none
  | c :: cs => if c == '>' then some [] else (uptoGt cs).map (c :: ·)

/-- Anchored matcher for `<tag[^>]*evt[^>]*>` (used for the `<img ... onerror`,
`<svg ... onload` and `<body ... onload` patterns): the region between the
tag literal and the first `>` must contain the event literal. -/
def matchTagEvtAt (tag evt : Str) (l : Str) : Bool :=
  tag.isPrefixOf l &&
    (match uptoGt (l.drop tag.length) with
     | some seg => hasSub evt seg
     | none => false)

/-- `[^'"]*javascript:` — scan forward for the `javascript:` literal without
crossing a quote. -/
def jsAfterQuote : Str → Bool
  | [] => false
  | c :: cs =>
    if (chars "javascript:").isPrefixOf (c :: cs) then true
    else if c == sq || c == '"' then false
    else jsAfterQuote cs

/-- Anchored matcher for `src=['"][^'"]*javascript:`. -/
def srcQuoteJsAt (l : Str) : Bool :=
  match l with
  | 's' :: 'r' :: 'c' :: '=' :: q :: rest => (q == sq || q == '"') && jsAfterQuote rest
  | _ => false

/-- Scan for `src=['"][^'"]*javascript:` without crossing a `>` (the `[^>]*`
that precedes `src=` in the iframe pattern). -/
def srcScan : Str → Bool
  | [] => false
  | c :: cs => srcQuoteJsAt (c :: cs) || (if c == '>' then false else srcScan cs)

/-- Anchored matcher for `<iframe[^>]*src=['"][^'"]*javascript:`. -/
def matchIframeAt (l : Str) : Bool :=
  (chars "<iframe").isPrefixOf l && srcScan (l.drop 7)

/-- Anchored matcher for `on\w+\s*=`. -/
def matchOnAttrAt (l : Str) : Bool :=
  match l with
  | 'o' :: 'n' :: rest =>
    !(rest.takeWhile wordChar).isEmpty &&
      (((rest.dropWhile wordChar).dropWhile wsChar).headD ' ' == '=')
  | _ => false

/-- `Scanner.xss_patterns` (scanner.py lines 30-38): true when any of the
seven compiled patterns matches the (lowercased) body. -/
def xssPatternsMatch (body : Str) : Bool :=
  searchPos matchScriptTagAt body ||
  searchPos (matchTagEvtAt (chars "<img") (chars "onerror")) body ||
  searchPos (matchTagEvtAt (chars "<svg") (chars "onload")) body ||
  searchPos matchIframeAt body ||
  searchPos (matchTagEvtAt (chars "<body") (chars "onload")) body ||
  hasSub (chars "javascript:") body ||
  searchPos matchOnAttrAt body

/-- `Scanner._is_xss_payload` (scanner.py lines 171-173). -/
def isXssPayload (payloadStr : Str) : Bool :=
  [chars "<script", chars "<img", chars "<svg", chars "<iframe",
   chars "javascript:", chars "onerror", chars "onload"].any
    (fun ind => hasSub ind payloadStr)

/-- `Scanner.detect_xss` (scanner.py lines 145-148). -/
def detectXss (body payloadStr : Str) : Bool :=
  xssPatternsMatch body || (isXssPayload payloadStr && hasSub payloadStr body)

/-- `Scanner.detect_sqli` (scanner.py lines 139-143). -/
def detectSqli (body payloadStr : Str) : Bool :=
  sqliKeywords.any (fun kw => hasSub kw body) ||
  sqliTautologies.any (fun t => hasSub t payloadStr && hasSub payloadStr body)

/-- Anchored matcher for `sh:\s*\d+:`. -/
def matchShNumAt (l : Str) : Bool :=
  match l with
  | 's' :: 'h' :: ':' :: rest =>
    let r2 := rest.dropWhile wsChar
    !(r2.takeWhile Char.isDigit).isEmpty && ((r2.dropWhile Char.isDigit).headD ' ' == ':')
  | _ => false

/-- Anchored matcher for `uid=\d+`. -/
def matchUidAt (l : Str) : Bool :=
  match l with
  | 'u' :: 'i' :: 'd' :: '=' :: rest => !(rest.takeWhile Char.isDigit).isEmpty
  | _ => false

/-- `Scanner.detect_command_injection` over the `cmd_injection_indicators`
patterns (scanner.py lines 49-56, 150-151). -/
def detectCmdInjection (body : Str) : Bool :=
  hasSub (chars "command not found") body ||
  hasSub (chars "permission denied") body ||
  searchPos matchShNumAt body ||
  hasSub (chars "exec(") body ||
  hasSub (chars "shell_exec") body ||
  (hasSub (chars "root@") body || searchPos matchUidAt body || hasSub (chars "www-data") body)

/-- `Scanner.detect_error_keywords` (scanner.py lines 159-160). -/
def detectErrorKeywords (body : Str) : Bool :=
  errorKeywords.any (fun kw => hasSub kw body)

/-- Python dict lookup on the response headers (`headers.get("server")`,
missing key yields the empty string after `or ""`). -/
def lookupHeader (hs : List (Str × Str)) (k : Str) : Str :=
  ((hs.find? (fun kv => kv.1 = k)).map (fun kv => kv.2)).getD []

/-- `Scanner.detect_info_disclosure` (scanner.py lines 153-157). -/
def detectInfoDisclosure (body : Str) (headers : List (Str × Str)) : Bool :=
  traceSignatures.any (fun s => hasSub s body) ||
  (let server := lowerStr (lookupHeader headers (chars "server"))
   !server.isEmpty &&
     ([chars "apache", chars "nginx", chars "werkzeug"].any (fun s => hasSub s server)) &&
     detectErrorKeywords body)

/-- A test case as seen by the classifier.  `payload` is the normalised
payload string `payload_str` (scanner.py lines 82-86 reduce a dict payload to
`str(raw_payload.get("payload", raw_payload))`; the claims quantify over the
resulting string).  The `id` is carried verbatim (the `uuid4` default fires
only when the key is absent). -/
structure ScanTestCase where
  id : Str
  url : Str
  param : Str
  method : Str
  payload : Str

/-- A response record.  `response.get(k)` on a missing key is `none`;
`elapsed` is modelled in whole seconds (only the `> 10` comparison is ever
made). -/
structure ScanResponse where
  body : Option Str
  headers : Option (List (Str × Str))
  status : Option Int
  elapsed : Option Int

/-- A finding (scanner.py `_create_finding`); the wall-clock `timestamp`
field is omitted from the model. -/
structure Finding where
  id : Str
  category : Str
  url : Str
  param : Str
  method : Str
  payload : Str
  status : Int
  evidence : Str
  severity : Str

/-- `Scanner._detect_anomalies` (scanner.py lines 162-166); the
`isinstance` guard always passes in the integer model. -/
def detectAnomalies (r : ScanResponse) : Bool :=
  (match r.status with
   | some s => [(500 : Int), 502, 503, 504].contains s
   | none => false) ||
  decide ((10 : Int) < r.elapsed.getD 0)

/-- `Scanner._extract_evidence` (scanner.py lines 175-179): Python
`body[max(0, start - 80) : start + len(payload_str) + 80]` as drop/take (the
`start` offset is written out three times instead of let-bound). -/
def extractEvidence (body payloadStr : Str) (maxLength : Nat) : Str :=
  if payloadStr ≠ [] ∧ hasSub payloadStr body then
    (body.drop ((findSubAux payloadStr 0 body).getD 0 - 80)).take
      ((findSubAux payloadStr 0 body).getD 0 + payloadStr.length + 80
        - ((findSubAux payloadStr 0 body).getD 0 - 80))
  else body.take maxLength

/-- `Scanner._create_finding` (scanner.py lines 181-194). -/
def mkFinding (tc : ScanTestCase) (r : ScanResponse) (category severity evidence : Str) : Finding :=
  ⟨tc.id, category, tc.url, tc.param, tc.method, tc.payload, r.status.getD 0, evidence, severity⟩

/-- The engine-error token list of `analyze_response` line 103 that escalates
a SQL-injection finding to `critical`. -/
def dbTokens : List Str :=
  [chars "sqlstate", chars "syntax error", chars "mysql", chars "postgres",
   chars "ora-", chars "sqlite"]

/-- `Scanner.analyze_response` (scanner.py lines 71-134).  The debug `print`
is side-effect only and dropped; `body`/`payload_str` (lines 78-87) are
inlined as `lowerStr b` / `lowerStr tc.payload`. -/
def analyzeResponse (tc : ScanTestCase) (r : ScanResponse) : Option Finding :=
  match r.body with
  | none => none
  | some b =>
    if b = [] then none
    else if detectXss (lowerStr b) (lowerStr tc.payload) then
      some (mkFinding tc r (chars "Cross-Site Scripting (XSS)") (chars "high")
        (extractEvidence (lowerStr b) (lowerStr tc.payload) 300))
    else if detectSqli (lowerStr b) (lowerStr tc.payload) then
      some (mkFinding tc r (chars "SQL Injection")
        (if dbTokens.any (fun t => hasSub t (lowerStr b)) then chars "critical" else chars "high")
        (extractEvidence (lowerStr b) (lowerStr tc.payload) 300))
    else if detectCmdInjection (lowerStr b) then
      some (mkFinding tc r (chars "Command Injection") (chars "high")
        (extractEvidence (lowerStr b) (lowerStr tc.payload) 300))
    else if detectInfoDisclosure (lowerStr b) (r.headers.getD []) then
      some (mkFinding tc r (chars "Information Disclosure") (chars "medium")
        (extractEvidence (lowerStr b) (lowerStr tc.payload) 300))
    else if detectErrorKeywords (lowerStr b) then
      some (mkFinding tc r (chars "Error Response") (chars "medium")
        (extractEvidence (lowerStr b) (lowerStr tc.payload) 300))
    else if detectAnomalies r then
      some (mkFinding tc r (chars "Anomalous Response") (chars "low")
        (extractEvidence (lowerStr b) (lowerStr tc.payload) 300))
    else none

/-! ## Payload catalog (`src/ethioscan/payloads.py`)

A catalog entry is either a literal string payload with a note, or (for the
`idor_numeric` category) a structured directive.  `idorAdjacent` models
`{"kind": "adjacent", "delta": d}`; `idorValue k v` models a directive whose
`kind` is `k ≠ "adjacent"` and that carries a fixed `value` `v`. -/

inductive PayloadItem where
  | literal (payload : Str) (note : Str)
  | idorAdjacent (delta : Int) (note : Str)
  | idorValue (kind : Str) (value : Int) (note : Str)
deriving DecidableEq

/-- The `note` field every catalog entry carries. -/
def PayloadItem.note : PayloadItem → Str
  | .literal _ n => n
  | .idorAdjacent _ n => n
  | .idorValue _ _ n => n

/-- `DEFAULT_PAYLOADS["sqli"]` (payloads.py lines 9-18). -/
def sqliPayloads : List PayloadItem :=
  [.literal (sq :: chars " OR " ++ [sq, '1', sq, '=', sq, '1']) (chars "safe SQL injection test"),
   .literal (sq :: chars " OR 1=1--") (chars "safe SQL injection test"),
   .literal (sq :: chars " UNION SELECT NULL--") (chars "safe UNION injection test"),
   .literal (sq :: chars "; DROP TABLE test--") (chars "safe SQL injection test"),
   .literal (sq :: chars " OR " ++ [sq, 'x', sq, '=', sq, 'x']) (chars "safe SQL injection test"),
   .literal ('1' :: sq :: chars " OR " ++ [sq, '1', sq, '=', sq, '1']) (chars "safe SQL injection test"),
   .literal (chars "admin" ++ sq :: chars "--") (chars "safe SQL injection test"),
   .literal (sq :: chars " OR 1=1#") (chars "safe SQL injection test")]

/-- `DEFAULT_PAYLOADS["xss"]` (payloads.py lines 20-29). -/
def xssPayloads : List PayloadItem :=
  [.literal (chars "<script>alert(1)</script>") (chars "reflected XSS detection"),
   .literal (chars "<img src=x onerror=alert(1)>") (chars "reflected XSS detection"),
   .literal (chars "<svg onload=alert(1)>") (chars "reflected XSS detection"),
   .literal (chars "javascript:alert(1)") (chars "reflected XSS detection"),
   .literal (chars "<iframe src=javascript:alert(1)></iframe>") (chars "reflected XSS detection"),
   .literal (chars "<body onload=alert(1)>") (chars "reflected XSS detection"),
   .literal (chars "<input onfocus=alert(1) autofocus>") (chars "reflected XSS detection"),
   .literal (chars "<select onfocus=alert(1) autofocus>") (chars "reflected XSS detection")]

/-- `DEFAULT_PAYLOADS["traversal"]` (payloads.py lines 31-38). -/
def traversalPayloads : List PayloadItem :=
  [.literal (chars "../../../../etc/passwd") (chars "lab-only directory traversal"),
   .literal (chars "..\\..\\..\\..\\windows\\system32\\drivers\\etc\\hosts") (chars "lab-only directory traversal"),
   .literal (chars "....//....//....//etc/passwd") (chars "lab-only directory traversal"),
   .literal (chars "..%2F..%2F..%2F..%2Fetc%2Fpasswd") (chars "lab-only directory traversal"),
   .literal (chars "..%252F..%252F..%252F..%252Fetc%252Fpasswd") (chars "lab-only directory traversal"),
   .literal (chars "..%c0%af..%c0%af..%c0%af..%c0%afetc%c0%afpasswd") (chars "lab-only directory traversal")]

/-- `DEFAULT_PAYLOADS["idor_numeric"]` (payloads.py lines 40-47). -/
def idorPayloads : List PayloadItem :=
  [.idorAdjacent 1 (chars "IDOR adjacent test"),
   .idorAdjacent (-1) (chars "IDOR adjacent test"),
   .idorValue (chars "large") 999999 (chars "IDOR large value test"),
   .idorValue (chars "large") 0 (chars "IDOR zero value test"),
   .idorValue (chars "negative") (-1) (chars "IDOR negative value test"),
   .idorValue (chars "negative") (-999999) (chars "IDOR negative value test")]

/-- `DEFAULT_PAYLOADS["command_injection"]` (payloads.py lines 49-55). -/
def cmdPayloads : List PayloadItem :=
  [.literal (chars "; ls") (chars "safe command injection test"),
   .literal (chars "| whoami") (chars "safe command injection test"),
   .literal (chars "& echo test") (chars "safe command injection test"),
   .literal (chars "`id`") (chars "safe command injection test"),
   .literal (chars "$(whoami)") (chars "safe command injection test")]

/-- `DEFAULT_PAYLOADS["ldap_injection"]` (payloads.py lines 57-62). -/
def ldapPayloads : List PayloadItem :=
  [.literal (chars "*") (chars "safe LDAP injection test"),
   .literal (chars "*)(uid=*") (chars "safe LDAP injection test"),
   .literal (chars "*)(|(uid=*") (chars "safe LDAP injection test"),
   .literal (chars "*)(&(uid=*") (chars "safe LDAP injection test")]

/-- `DEFAULT_PAYLOADS["nosql_injection"]` (payloads.py lines 64-69). -/
def nosqlPayloads : List PayloadItem :=
  [.literal (sq :: chars " || " ++ [sq, '1', sq, '=', '=', sq, '1']) (chars "safe NoSQL injection test"),
   .literal (sq :: chars " || 1==1") (chars "safe NoSQL injection test"),
   .literal (sq :: chars "; return true; //") (chars "safe NoSQL injection test"),
   .literal (sq :: chars "; return 1; //") (chars "safe NoSQL injection test")]

/-- `DEFAULT_PAYLOADS` (payloads.py lines 8-70), an ordered category map. -/
def DEFAULT_PAYLOADS : List (Str × List PayloadItem) :=
  [(chars "sqli", sqliPayloads),
   (chars "xss", xssPayloads),
   (chars "traversal", traversalPayloads),
   (chars "idor_numeric", idorPayloads),
   (chars "command_injection", cmdPayloads),
   (chars "ldap_injection", ldapPayloads),
   (chars "nosql_injection", nosqlPayloads)]

/-- `get_payloads` (payloads.py lines 73-105); the `ValueError` on an unknown
profile is modelled as `none`. -/
def getPayloads (profile : Str) : Option (List (Str × List PayloadItem)) :=
  if profile = chars "safe" then
    some [(chars "sqli", sqliPayloads),
          (chars "xss", xssPayloads),
          (chars "idor_numeric", idorPayloads),
          (chars "command_injection", cmdPayloads),
          (chars "ldap_injection", ldapPayloads),
          (chars "nosql_injection", nosqlPayloads)]
  else if profile = chars "lab" then some DEFAULT_PAYLOADS
  else if profile = chars "all" then some DEFAULT_PAYLOADS
  else none

/-- `is_lab_only_payload` (payloads.py lines 108-128). -/
def isLabOnlyPayload (category : Str) (p : PayloadItem) : Bool :=
  if category = chars "traversal" then true
  else
    hasSub (chars "lab-only") (lowerStr p.note) ||
    hasSub (chars "destructive") (lowerStr p.note)

/-! ## Crawler result deduplication (`src/ethioscan/crawler.py` lines 226-243)

The network/HTML side of `crawl` is not embedded; the claims about the crawl
result concern the pure deduplication stage applied to the accumulated
`all_forms` / `all_params` lists, which is embedded verbatim below.  The
Python `seen` sets are modelled as lists queried by membership. -/

structure CForm where
  url : Str
  action : Str
  method : Str
  inputs : List Str
deriving DecidableEq

structure CParam where
  url : Str
  params : List Str
deriving DecidableEq

/-- The deduplication key `(f["url"], f["action"], f["method"])` — crawler.py
line 230 (the form's `url` field is the hosting page URL). -/
def formKey (f : CForm) : Str × Str × Str := (f.url, f.action, f.method)

/-- Loop body of the form deduplication (crawler.py lines 227-233). -/
def dedupFormsAux : List (Str × Str × Str) → List CForm → List CForm
  | _, [] => []
  | seen, f :: rest =>
    if formKey f ∈ seen then dedupFormsAux seen rest
    else f :: dedupFormsAux (formKey f :: seen) rest

/-- `unique_forms` (crawler.py lines 227-233). -/
def dedupForms (fs : List CForm) : List CForm := dedupFormsAux [] fs

/-- Loop body of the param deduplication (crawler.py lines 236-242); note the
truthiness test `if key and key not in seen` also drops entries whose URL is
the empty string. -/
def dedupParamsAux : List Str → List CParam → List CParam
  | _, [] => []
  | seen, p :: rest =>
    if p.url ≠ [] ∧ p.url ∉ seen then p :: dedupParamsAux (p.url :: seen) rest
    else dedupParamsAux seen rest

/-- `unique_params` (crawler.py lines 236-242). -/
def dedupParams (ps : List CParam) : List CParam := dedupParamsAux [] ps

/-! ## Model of `urllib.parse` percent-encoding

The fuzzer and crawler call `urllib.parse`'s `quote_plus` / `unquote_plus`
(via `urlencode` / `parse_qs`).  `quote_plus` keeps the `_ALWAYS_SAFE`
characters, turns spaces into `+`, and percent-encodes the UTF-8 bytes of
everything else with uppercase hex; `unquote_plus` reverses `+` and decodes
maximal runs of `%XX` byte escapes as UTF-8 with `errors="replace"`. -/

/-- `_ALWAYS_SAFE` of `urllib.parse` with `safe=''`: ASCII alphanumerics and
`_.-~`. -/
def alwaysSafe (c : Char) : Bool := c.isAlphanum || c == '_' || c == '.' || c == '-' || c == '~'

/-- Uppercase hex digit of a value below 16. -/
def hexDigitUpper (n : Nat) : Char := if n < 10 then Char.ofNat (48 + n) else Char.ofNat (55 + n)

/-- Hex digit test (both cases, as accepted by `unquote`). -/
def isHexDigitCh (c : Char) : Bool :=
  decide ((48 ≤ c.toNat ∧ c.toNat ≤ 57) ∨ (97 ≤ c.toNat ∧ c.toNat ≤ 102) ∨
          (65 ≤ c.toNat ∧ c.toNat ≤ 70))

/-- Value of a hex digit. -/
def hexVal (c : Char) : Nat :=
  if c.toNat ≤ 57 then c.toNat - 48 else if c.toNat ≤ 70 then c.toNat - 55 else c.toNat - 87

/-- Value of a two-digit hex escape. -/
def hexPairVal (a b : Char) : Nat := hexVal a * 16 + hexVal b

/-- The UTF-8 bytes of a character. -/
def utf8Bytes (c : Char) : List Nat :=
  if c.toNat < 128 then [c.toNat]
  else if c.toNat < 2048 then [192 + c.toNat / 64, 128 + c.toNat % 64]
  else if c.toNat < 65536 then
    [224 + c.toNat / 4096, 128 + (c.toNat / 64) % 64, 128 + c.toNat % 64]
  else
    [240 + c.toNat / 262144, 128 + (c.toNat / 4096) % 64, 128 + (c.toNat / 64) % 64,
     128 + c.toNat % 64]

/-- A `%XX` escape for one byte. -/
def percentByte (b : Nat) : Str := ['%', hexDigitUpper (b / 16), hexDigitUpper (b % 16)]

/-- `quote_plus` on one character. -/
def quotePlusChar (c : Char) : Str :=
  if alwaysSafe c then [c]
  else if c == ' ' then ['+']
  else ((utf8Bytes c).map percentByte).flatten

/-- `urllib.parse.quote_plus` with `safe=''`. -/
def quotePlus (l : Str) : Str := (l.map quotePlusChar).flatten

/-- U+FFFD, produced by `errors="replace"` decoding. -/
def replChar : Char := Char.ofNat 65533

/-- A UTF-8 continuation byte. -/
def isContByte (b : Nat) : Bool := decide (128 ≤ b ∧ b ≤ 191)

/-- Valid range of the first continuation byte for a given lead byte
(excludes overlong encodings and surrogates). -/
def utf8Cont1Range (b : Nat) : Nat × Nat :=
  if b = 224 then (160, 191)
  else if b = 237 then (128, 159)
  else if b = 240 then (144, 191)
  else if b = 244 then (128, 143)
  else (128, 191)

/-- Range membership for `utf8Cont1Range`. -/
def inByteRange (r : Nat × Nat) (b : Nat) : Bool := decide (r.1 ≤ b ∧ b ≤ r.2)

/-- UTF-8 decoding with `errors="replace"`: valid sequences decode to their
scalar value, anything else yields U+FFFD and resumes after the offending
lead byte. -/
def utf8DecodeReplace : List Nat → Str
  | [] => []
  | b :: rest =>
    if b < 128 then Char.ofNat b :: utf8DecodeReplace rest
    else if 194 ≤ b ∧ b ≤ 223 then
      (if 1 ≤ rest.length ∧ isContByte (rest.headD 0) = true then
        Char.ofNat ((b - 192) * 64 + (rest.headD 0 - 128)) :: utf8DecodeReplace (rest.drop 1)
      else replChar :: utf8DecodeReplace rest)
    else if 224 ≤ b ∧ b ≤ 239 then
      (if 2 ≤ rest.length ∧ inByteRange (utf8Cont1Range b) (rest.headD 0) = true
          ∧ isContByte ((rest.drop 1).headD 0) = true then
        Char.ofNat ((b - 224) * 4096 + (rest.headD 0 - 128) * 64 + ((rest.drop 1).headD 0 - 128))
          :: utf8DecodeReplace (rest.drop 2)
      else replChar :: utf8DecodeReplace rest)
    else if 240 ≤ b ∧ b ≤ 244 then
      (if 3 ≤ rest.length ∧ inByteRange (utf8Cont1Range b) (rest.headD 0) = true
          ∧ isContByte ((rest.drop 1).headD 0) = true
          ∧ isContByte ((rest.drop 2).headD 0) = true then
        Char.ofNat ((b - 240) * 262144 + (rest.headD 0 - 128) * 4096
            + ((rest.drop 1).headD 0 - 128) * 64 + ((rest.drop 2).headD 0 - 128))
          :: utf8DecodeReplace (rest.drop 3)
      else replChar :: utf8DecodeReplace rest)
    else replChar :: utf8DecodeReplace rest
termination_by l => l.length
decreasing_by all_goals simp <;> omega

/-- Scanner of `unquote` after the global `+ → space` replacement: `%XX`
escapes accumulate a pending byte run (decoded together, as Python decodes
each maximal escape run with one `bytes.decode` call); any literal
character — including a `%` not followed by two hex digits — flushes the
run. -/
def unquoteAux : List Nat → Str → Str
  | pending, [] => utf8DecodeReplace pending.reverse
  | pending, c :: rest =>
    if c = '%' ∧ 2 ≤ rest.length ∧ isHexDigitCh (rest.headD ' ') = true
        ∧ isHexDigitCh ((rest.drop 1).headD ' ') = true then
      unquoteAux (hexPairVal (rest.headD ' ') ((rest.drop 1).headD ' ') :: pending) (rest.drop 2)
    else utf8DecodeReplace pending.reverse ++ c :: unquoteAux [] rest
termination_by _ l => l.length
decreasing_by all_goals simp <;> omega

/-- `urllib.parse.unquote_plus`. -/
def unquotePlus (l : Str) : Str :=
  unquoteAux [] (l.map (fun c => if c == '+' then ' ' else c))

/-! ## Model of `parse_qs` / `urlencode`

`parse_qs` with default arguments: split on `&`, skip empty fields and
fields without `=` or with an empty value, decode names and values with
`unquote_plus`, then group values by first key occurrence.  `urlencode`
with `doseq=True` quotes each key/value with `quote_plus` and joins with
`&`. -/

/-- Python `str.split(sep)` for a one-character separator. -/
def splitSep (sep : Char) : Str → List Str
  | [] => [[]]
  | c :: cs =>
    match splitSep sep cs with
    | [] => [[]]
    | h :: t => if c == sep then [] :: h :: t else (c :: h) :: t

/-- `sep.flatten(fields)`. -/
def joinSep (sep : Char) : List Str → Str
  | [] => []
  | f :: rest => f ++ (rest.map (fun g => sep :: g)).flatten

/-- Split at the first occurrence of a separator: returns the prefix before
it and, when found, the suffix after it (Python `str.split(sep, 1)`). -/
def breakAt (sep : Char) : Str → Str × Option Str
  | [] => ([], none)
  | c :: cs =>
    if c = sep then ([], some cs)
    else
      match breakAt sep cs with
      | (a, b) => (c :: a, b)

/-- One field of `parse_qsl` (qs split on `&`): `none` models the
`continue` branches for an empty field, a field without `=`, and a field
with an empty value (`keep_blank_values=False`). -/
def processField (f : Str) : Option (Str × Str) :=
  if f = [] then none
  else
    match breakAt '=' f with
    | (_, none) => none
    | (nm, some vl) => if vl = [] then none else some (unquotePlus nm, unquotePlus vl)

/-- `urllib.parse.parse_qsl` with default arguments. -/
def parseQsl (q : Str) : List (Str × Str) := (splitSep '&' q).filterMap processField

/-- An insertion-ordered dict from names to value lists, as built by
`parse_qs`. -/
abbrev QDict := List (Str × List Str)

/-- `parsed_result[name].append(value)` with dict `setdefault` semantics. -/
def addToDict : QDict → Str → Str → QDict
  | [], k, v => [(k, [v])]
  | (k2, vs) :: rest, k, v =>
    if k2 = k then (k2, vs ++ [v]) :: rest else (k2, vs) :: addToDict rest k v

/-- The grouping loop of `parse_qs`. -/
def groupPairs (ps : List (Str × Str)) : QDict :=
  ps.foldl (fun d kv => addToDict d kv.1 kv.2) []

/-- `urllib.parse.parse_qs` with default arguments. -/
def parseQs (q : Str) : QDict := groupPairs (parseQsl q)

/-- Python dict assignment `d[k] = vs` (replace in place, else append). -/
def setVal : QDict → Str → List Str → QDict
  | [], k, vs => [(k, vs)]
  | (k2, vs2) :: rest, k, vs =>
    if k2 = k then (k2, vs) :: rest else (k2, vs2) :: setVal rest k vs

/-- `urllib.parse.urlencode(d, doseq=True)` (default `quote_via=quote_plus`). -/
def urlencodeD (d : QDict) : Str :=
  joinSep '&' ((d.map (fun kv => kv.2.map (fun v => quotePlus kv.1 ++ '=' :: quotePlus v))).flatten)

/-- The pairs of a `QDict` in iteration order. -/
def flattenD (d : QDict) : List (Str × Str) :=
  (d.map (fun kv => kv.2.map (fun v => (kv.1, v)))).flatten

/-- The key list of a `QDict`. -/
def keysOf (d : QDict) : List Str := d.map (fun kv => kv.1)

/-- All characters of the string are ASCII. -/
def asciiStr (l : Str) : Bool := l.all (fun c => decide (c.toNat < 128))

/-! ## Model of `urllib.parse.urlparse` / `urlunparse` / `urljoin`

Embedded from CPython's `urllib/parse.py`: the scheme is recognised when the
text before the first `:` starts with an ASCII letter and consists of scheme
characters; `//` introduces a netloc running to the first `/`, `?` or `#`;
the fragment is everything after the first `#` (of the remainder), the query
everything after the first `?`; `urlparse` additionally splits `;params`
from the last path segment. -/

/-- Characters allowed in a URL scheme after the initial letter. -/
def schemeChar (c : Char) : Bool :=
  c.isAlpha || c.isDigit || c == '+' || c == '-' || c == '.'

/-- The scheme-splitting step of `urlsplit(url, scheme=default)`: the prefix
before the first `:` must be nonempty, start with an ASCII letter and
consist of scheme characters; it is lowercased.  (`breakAt ':'` is the
`find`/slice pair of the CPython code.) -/
def splitScheme (l : Str) (default : Str) : Str × Str :=
  match breakAt ':' l with
  | (pre, some rest) =>
    if pre ≠ [] ∧ (pre.headD ' ').isAlpha ∧ (pre.drop 1).all schemeChar then
      (lowerStr pre, rest)
    else (default, l)
  | (_, none) => (default, l)

/-- A character terminating the netloc. -/
def netlocDelim (c : Char) : Bool := c == '/' || c == '?' || c == '#'

/-- The netloc-splitting step (`_splitnetloc`). -/
def splitNetloc : Str → Str × Str
  | '/' :: '/' :: rest =>
    (rest.takeWhile (fun c => !netlocDelim c), rest.dropWhile (fun c => !netlocDelim c))
  | l => ([], l)

/-- Split at the last occurrence of a separator. -/
def breakAtLast (sep : Char) (l : Str) : Option (Str × Str) :=
  match breakAt sep l.reverse with
  | (a, some b) => some (b.reverse, a.reverse)
  | (_, none) => none

/-- `_splitparams`: split `;params` out of the part of the path after its
last `/` (or out of the whole path when it has no `/`). -/
def splitParams (l : Str) : Str × Str :=
  match breakAtLast '/' l with
  | some (before, after) =>
    match breakAt ';' after with
    | (a, some b) => (before ++ '/' :: a, b)
    | (_, none) => (l, [])
  | none =>
    match breakAt ';' l with
    | (a, some b) => (a, b)
    | (_, none) => (l, [])

/-- The six components of `urlparse`. -/
structure UrlParts where
  scheme : Str
  netloc : Str
  path : Str
  params : Str
  query : Str
  fragment : Str
deriving DecidableEq, Repr

/-- The part of the path after its last `/` (the whole path when it has no
`/`): the region `_splitparams` searches for `;`. -/
def afterLastSlash (l : Str) : Str :=
  match breakAtLast '/' l with
  | some (_, a) => a
  | none => l

/-- `urllib.parse.urlparse(l, scheme=default)` (with `allow_fragments=True`,
the only form the repository uses).  `(breakAt c r).1` is the part before
the first `c` (all of `r` if absent) and `(breakAt c r).2.getD []` the part
after it (empty if absent) — exactly `str.split(c, 1)`. -/
def urlparseD (l default : Str) : UrlParts :=
  let s1 := splitScheme l default
  let s2 := splitNetloc s1.2
  let r3 := (breakAt '#' s2.2).1
  let fragment := ((breakAt '#' s2.2).2).getD []
  let path0 := (breakAt '?' r3).1
  let query := ((breakAt '?' r3).2).getD []
  let s5 := splitParams path0
  ⟨s1.1, s2.1, s5.1, s5.2, query, fragment⟩

/-- `urlparse` with the default empty scheme. -/
def urlparse (l : Str) : UrlParts := urlparseD l []

/-- `urllib.parse.urlunsplit`. -/
def urlunsplit (scheme netloc path query fragment : Str) : Str :=
  let u1 :=
    if netloc ≠ [] ∨ (chars "//").isPrefixOf path then
      '/' :: '/' :: netloc ++ (if path ≠ [] ∧ path.headD ' ' ≠ '/' then '/' :: path else path)
    else path
  let u2 := if scheme ≠ [] then scheme ++ ':' :: u1 else u1
  let u3 := if query ≠ [] then u2 ++ '?' :: query else u2
  if fragment ≠ [] then u3 ++ '#' :: fragment else u3

/-- `urllib.parse.urlunparse`. -/
def urlunparse (p : UrlParts) : Str :=
  urlunsplit p.scheme p.netloc
    (if p.params ≠ [] then p.path ++ ';' :: p.params else p.path) p.query p.fragment

/-- `urllib.parse.uses_relative`. -/
def usesRelative : List Str :=
  [chars "", chars "ftp", chars "http", chars "gopher", chars "nntp", chars "imap",
   chars "wais", chars "file", chars "https", chars "shttp", chars "mms",
   chars "prospero", chars "rtsp", chars "rtsps", chars "rtspu", chars "sftp",
   chars "svn", chars "svn+ssh", chars "ws", chars "wss"]

/-- `urllib.parse.uses_netloc`. -/
def usesNetloc : List Str :=
  [chars "", chars "ftp", chars "http", chars "gopher", chars "nntp", chars "telnet",
   chars "imap", chars "wais", chars "file", chars "mms", chars "https", chars "shttp",
   chars "snews", chars "prospero", chars "rtsp", chars "rtsps", chars "rtspu",
   chars "rsync", chars "svn", chars "svn+ssh", chars "sftp", chars "nfs",
   chars "git", chars "git+ssh", chars "ws", chars "wss"]

/-- `segments[1:-1] = filter(None, segments[1:-1])` — drop empty interior
segments, keeping the first and last. -/
def filterMiddle (l : List Str) : List Str :=
  match l with
  | [] => []
  | [a] => [a]
  | a :: rest =>
    match rest.reverse with
    | [] => [a]
    | lastE :: midRev => a :: (midRev.reverse.filter (fun s => !s.isEmpty)) ++ [lastE]

/-- The dot-segment resolution loop of `urljoin` (`..` pops, `.` is skipped,
popping an empty stack is a no-op). -/
def resolveSegments (segments : List Str) : List Str :=
  segments.foldl
    (fun acc seg =>
      if seg = chars ".." then acc.dropLast
      else if seg = chars "." then acc
      else acc ++ [seg]) []

/-- `urllib.parse.urljoin`. -/
def urljoin (base url : Str) : Str :=
  if base = [] then url
  else if url = [] then base
  else
    let b := urlparseD base []
    let u := urlparseD url b.scheme
    if u.scheme ≠ b.scheme ∨ u.scheme ∉ usesRelative then url
    else
      let netloc0 :=
        if u.scheme ∈ usesNetloc then (if u.netloc ≠ [] then u.netloc else b.netloc)
        else u.netloc
      if u.scheme ∈ usesNetloc ∧ u.netloc ≠ [] then
        urlunparse ⟨u.scheme, u.netloc, u.path, u.params, u.query, u.fragment⟩
      else if u.path = [] ∧ u.params = [] then
        urlunparse ⟨u.scheme, netloc0, b.path, b.params,
          (if u.query = [] then b.query else u.query), u.fragment⟩
      else
        let baseParts0 := splitSep '/' b.path
        let baseParts := if baseParts0.getLast? ≠ some [] then baseParts0.dropLast else baseParts0
        let segments :=
          if ([ '/' ] : Str).isPrefixOf u.path then splitSep '/' u.path
          else filterMiddle (baseParts ++ splitSep '/' u.path)
        let resolved0 := resolveSegments segments
        let resolved :=
          if segments.getLast? = some (chars ".") ∨ segments.getLast? = some (chars "..") then
            resolved0 ++ [[]]
          else resolved0
        let joined := joinSep '/' resolved
        urlunparse ⟨u.scheme, netloc0, (if joined = [] then [ '/' ] else joined),
          u.params, u.query, u.fragment⟩

/-! ## Test-case generator (`src/ethioscan/fuzzer.py`) -/

/-- Digits of a Python `int()` literal after the optional sign: at least one
digit, with single underscores allowed between digits. -/
def digitsValAux : Nat → Str → Option Nat
  | acc, [] => some acc
  | acc, c :: cs =>
    if c.isDigit then digitsValAux (acc * 10 + (c.toNat - 48)) cs
    else if c = '_' then
      match cs with
      | d :: cs2 => if d.isDigit then digitsValAux (acc * 10 + (d.toNat - 48)) cs2 else none
      | [] => none
    else none

/-- Value of a nonempty digit string (with underscore separators). -/
def digitsVal : Str → Option Nat
  | [] => none
  | c :: cs => if c.isDigit then digitsValAux (c.toNat - 48) cs else none

/-- Python `int(s)` on a string: strip whitespace, optional sign, decimal
digits; `none` models the `ValueError`. -/
def pythonInt (l : Str) : Option Int :=
  match trimWs l with
  | '+' :: rest => (digitsVal rest).map Int.ofNat
  | '-' :: rest => (digitsVal rest).map (fun n => -(Int.ofNat n))
  | rest => (digitsVal rest).map Int.ofNat

/-- The payload-value computation of `_build_test_url` (fuzzer.py lines
436-454).  `none` models the `KeyError` of reading `payload_item["kind"]` on
a literal payload in the `idor_numeric` category, and stands in for the
`str(payload_item)` dict-repr fallback of a structured payload in a literal
category; neither branch is reachable from the shipped catalog and no claim
depends on them.  `original_params.get(param_name, ["1"])[0]` is the dict
lookup with default, then first element. -/
def getPayloadValue (category : Str) (item : PayloadItem) (originalParams : QDict)
    (paramName : Str) : Option Str :=
  if category = chars "idor_numeric" then
    match item with
    | .idorAdjacent delta _ =>
      let originalValue := (((originalParams.find? (fun kv => kv.1 = paramName)).map
          (fun kv => kv.2)).getD [chars "1"]).headD []
      match pythonInt originalValue with
      | some n => some (chars (toString (n + delta)))
      | none => some (chars (toString delta))
    | .idorValue _ v _ => some (chars (toString v))
    | .literal _ _ => none
  else
    match item with
    | .literal p _ => some p
    | _ => none

/-- `_build_test_url` (fuzzer.py lines 420-470). -/
def buildTestUrl (originalUrl paramName : Str) (payloadItem : PayloadItem)
    (category : Str) : Option Str :=
  let parsedUrl := urlparse originalUrl
  let originalParams := parseQs parsedUrl.query
  (getPayloadValue category payloadItem originalParams paramName).map (fun payloadValue =>
    urlunparse ⟨parsedUrl.scheme, parsedUrl.netloc, parsedUrl.path, parsedUrl.params,
      urlencodeD (setVal originalParams paramName [payloadValue]), parsedUrl.fragment⟩)

/-- `_is_numeric_param`'s indicator list (fuzzer.py lines 483-486). -/
def numericIndicators : List Str :=
  [chars "id", chars "page", chars "offset", chars "limit", chars "count", chars "num",
   chars "index", chars "user_id", chars "item_id", chars "product_id", chars "order_id"]

/-- `_is_numeric_param` (fuzzer.py lines 473-489). -/
def isNumericParam (paramName : Str) : Bool :=
  numericIndicators.any (fun ind => hasSub ind (lowerStr paramName))

/-- A generated test case.  The nondeterministic `uuid4` id and the
`crawl_ref` back-pointer are omitted; `meta["category"]` and
`meta["lab_only"]` are flattened into fields; `url` is `Option` because
`buildTestUrl` models catalog-mismatch exceptions as `none`. -/
structure FuzzTestCase where
  method : Str
  url : Option Str
  param : Str
  payload : PayloadItem
  origin : Str
  category : Str
  labOnly : Bool
deriving DecidableEq

/-- `generate_tests_from_params` (fuzzer.py lines 15-61), materialised as a
list. -/
def generateTestsFromParams (params : List CParam)
    (payloads : List (Str × List PayloadItem)) (maxPerParam : Nat) : List FuzzTestCase :=
  params.flatMap (fun paramItem =>
    paramItem.params.flatMap (fun paramName =>
      payloads.flatMap (fun catPair =>
        if catPair.1 = chars "idor_numeric" ∧ isNumericParam paramName = false then []
        else (catPair.2.take maxPerParam).map (fun payloadItem =>
          ⟨chars "GET", buildTestUrl paramItem.url paramName payloadItem catPair.1,
           paramName, payloadItem, chars "param", catPair.1,
           isLabOnlyPayload catPair.1 payloadItem⟩))))

/-- `generate_tests_from_forms` (fuzzer.py lines 64-111), materialised as a
list. -/
def generateTestsFromForms (forms : List CForm)
    (payloads : List (Str × List PayloadItem)) (maxSamples : Nat) : List FuzzTestCase :=
  forms.flatMap (fun form =>
    form.inputs.flatMap (fun inputName =>
      payloads.flatMap (fun catPair =>
        if catPair.1 = chars "idor_numeric" then []
        else (catPair.2.take maxSamples).map (fun payloadItem =>
          ⟨upperStr form.method, some form.action, inputName, payloadItem, chars "form",
           catPair.1, isLabOnlyPayload catPair.1 payloadItem⟩))))

/-! ## The two `normalize_url` revisions -/

/-- `normalize_url` of `src/ethioscan/crawler.py` (lines 48-72): resolve
against the base, require an http(s) scheme, rebuild as
`scheme://netloc{path or /}?query` (fragment dropped). -/
def normalizeUrl1 (url baseUrl : Str) : Option Str :=
  if url = [] ∨ trimWs url = [] then none
  else
    let parsed := urlparse (urljoin baseUrl url)
    if parsed.scheme = chars "http" ∨ parsed.scheme = chars "https" then
      some (parsed.scheme ++ chars "://" ++ parsed.netloc ++
        (if parsed.path = [] then [ '/' ] else parsed.path) ++
        (if parsed.query ≠ [] then '?' :: parsed.query else []))
    else none

/-- `normalize_url` of `src/crawler.py` (lines 47-88): pre-filter the raw
URL's scheme, resolve against the base, require a scheme and netloc,
rebuild as `scheme://netloc{path}?query` (fragment dropped, no `/`
fallback for an empty path). -/
def normalizeUrl2 (url baseUrl : Str) : Option Str :=
  if url = [] ∨ trimWs url = [] then none
  else
    let pu := urlparse url
    if pu.scheme ≠ [] ∧ pu.scheme ∉ [chars "http", chars "https"] then none
    else if pu.scheme ∈ [chars "mailto", chars "tel", chars "javascript",
        chars "data", chars "ftp"] then none
    else
      let pa := urlparse (urljoin baseUrl url)
      if pa.scheme = [] ∨ pa.netloc = [] then none
      else
        some (pa.scheme ++ chars "://" ++ pa.netloc ++ pa.path ++
          (if pa.query ≠ [] then '?' :: pa.query else []))

/-! ## Scanner lemmas and claims -/

lemma hasSub_nil (pat : Str) : hasSub pat [] = pat.isEmpty := by
  cases pat <;> simp [hasSub, findSubAux]

lemma detectSqli_nil (p : Str) : detectSqli [] p = false := by
  have hk : sqliKeywords.any (fun kw => hasSub kw []) = false := by decide
  cases p with
  | nil => decide
  | cons c cs =>
    have h : hasSub (c :: cs) [] = false := by simp [hasSub, findSubAux]
    simp [detectSqli, h, hk]

lemma xssPatternsMatch_nil : xssPatternsMatch [] = false := by decide

/-- C1, counterexample: for the response body `"mysql syntax error in query"`
with the non-script payload `"abc"`, the classifier returns a SQL-Injection
finding of severity `critical` even though the body does not contain
`sqlstate` — the escalation token list of scanner.py line 103 includes
`"mysql"` and `"syntax error"` themselves, so the claimed severity `high`
never occurs for this body. -/
theorem c1_severity_counterexample :
    ((analyzeResponse ⟨chars "t", chars "u", chars "id", chars "GET", chars "abc"⟩
        ⟨some (chars "mysql syntax error in query"), none, some 200, none⟩).map
        (fun f => (f.category, f.severity))
      = some (chars "SQL Injection", chars "critical"))
    ∧ hasSub (chars "sqlstate") (lowerStr (chars "mysql syntax error in query")) = false := by
  exact ⟨by decide, by decide⟩

/-- C1, amended: whenever the script-injection heuristic does not match and
the database heuristic does (engine-error signature in the body, or a
boolean-tautology payload reflected verbatim), the classifier returns a
SQL-Injection finding whose severity is `critical` exactly when the body
contains one of the engine tokens `sqlstate`, `syntax error`, `mysql`,
`postgres`, `ora-`, `sqlite`, and `high` otherwise.  In particular the body
`"mysql syntax error in query"` yields `critical`, not `high`. -/
theorem c1_sqli_severity (tc : ScanTestCase) (r : ScanResponse) (b : Str)
    (hb : r.body = some b)
    (hx : detectXss (lowerStr b) (lowerStr tc.payload) = false)
    (hs : detectSqli (lowerStr b) (lowerStr tc.payload) = true) :
    ∃ f, analyzeResponse tc r = some f ∧ f.category = chars "SQL Injection" ∧
      f.severity =
        (if dbTokens.any (fun t => hasSub t (lowerStr b)) then chars "critical"
         else chars "high") := by
  have hbne : b ≠ [] := by
    intro he
    subst he
    rw [show lowerStr ([] : Str) = [] from rfl, detectSqli_nil] at hs
    exact Bool.false_ne_true hs
  have hmain : analyzeResponse tc r = some (mkFinding tc r (chars "SQL Injection")
      (if dbTokens.any (fun t => hasSub t (lowerStr b)) then chars "critical"
       else chars "high")
      (extractEvidence (lowerStr b) (lowerStr tc.payload) 300)) := by
    unfold analyzeResponse
    rw [hb]
    simp only [hx, hs, if_neg hbne]
    simp
  exact ⟨_, hmain, rfl, rfl⟩

/-- Witness for `c1_sqli_severity` at the body `"postgres failure"` and
payload `"zz"`. -/
theorem c1_sqli_severity_witness :
    ((⟨some (chars "postgres failure"), none, some 200, none⟩ : ScanResponse).body
        = some (chars "postgres failure"))
    ∧ detectXss (lowerStr (chars "postgres failure"))
        (lowerStr (chars "zz")) = false
    ∧ detectSqli (lowerStr (chars "postgres failure"))
        (lowerStr (chars "zz")) = true
    ∧ ∃ f, analyzeResponse ⟨chars "t", chars "u", chars "q", chars "GET", chars "zz"⟩
          ⟨some (chars "postgres failure"), none, some 200, none⟩ = some f ∧
        f.category = chars "SQL Injection" ∧
        f.severity =
          (if dbTokens.any (fun t => hasSub t (lowerStr (chars "postgres failure")))
           then chars "critical" else chars "high") := by
  refine ⟨rfl, by decide, by decide, ?_⟩
  exact c1_sqli_severity ⟨chars "t", chars "u", chars "q", chars "GET", chars "zz"⟩
    ⟨some (chars "postgres failure"), none, some 200, none⟩
    (chars "postgres failure") rfl (by decide) (by decide)

/-- C2, counterexample: a 150-character payload found 100 characters into a
350-character body produces an evidence string of 310 characters, exceeding
the configured maximum length of 300 — the window branch of
`_extract_evidence` is not capped by `max_length`. -/
theorem c2_evidence_counterexample :
    ((analyzeResponse ⟨chars "t1", chars "u", chars "p", chars "GET", List.replicate 150 'a'⟩
        ⟨some (List.replicate 100 'b' ++ List.replicate 150 'a' ++ List.replicate 100 'b'),
         none, some 500, none⟩).map (fun f => f.evidence.length) = some 310)
    ∧ 300 < 310 := by
  exact ⟨by decide, by decide⟩

/-- C2, amended: the evidence string is bounded by
`max maxLength (payload length + 160)` — the prefix branch respects the
configured maximum, while the window branch is bounded by the payload length
plus the two fixed 80-character margins (and so stays within 300 only when
the payload is at most 140 characters long). -/
theorem c2_evidence_bound (body payloadStr : Str) (maxLength : Nat) :
    (extractEvidence body payloadStr maxLength).length
      ≤ max maxLength (payloadStr.length + 160) := by
  unfold extractEvidence
  split
  · exact le_trans (le_trans (List.length_take_le _ _) (by omega)) (le_max_right _ _)
  · exact le_trans (List.length_take_le _ _) (le_max_left _ _)

/-- C5: a response whose body matches one of the script-injection signature
patterns and also contains a database-engine error signature is classified
as `Cross-Site Scripting (XSS)`, never as `SQL Injection` — the heuristics
run in strict priority order and short-circuit on the first match. -/
theorem c5_xss_priority (tc : ScanTestCase) (r : ScanResponse) (b : Str)
    (hb : r.body = some b)
    (hsig : xssPatternsMatch (lowerStr b) = true)
    (hdb : sqliKeywords.any (fun kw => hasSub kw (lowerStr b)) = true) :
    ∃ f, analyzeResponse tc r = some f ∧
      f.category = chars "Cross-Site Scripting (XSS)" := by
  have hbne : b ≠ [] := by
    intro he
    subst he
    rw [show lowerStr ([] : Str) = [] from rfl, xssPatternsMatch_nil] at hsig
    exact Bool.false_ne_true hsig
  have hx : detectXss (lowerStr b) (lowerStr tc.payload) = true := by
    simp [detectXss, hsig]
  have hmain : analyzeResponse tc r = some (mkFinding tc r (chars "Cross-Site Scripting (XSS)")
      (chars "high") (extractEvidence (lowerStr b) (lowerStr tc.payload) 300)) := by
    unfold analyzeResponse
    rw [hb]
    simp only [hx, if_neg hbne]
    simp
  exact ⟨_, hmain, rfl⟩

/-- Witness for `c5_xss_priority` at a body containing a literal script tag
and the keyword `mysql`. -/
theorem c5_xss_priority_witness :
    ((⟨some (chars "<script>alert(1)</script> mysql"), none, some 200, none⟩
        : ScanResponse).body = some (chars "<script>alert(1)</script> mysql"))
    ∧ xssPatternsMatch (lowerStr (chars "<script>alert(1)</script> mysql")) = true
    ∧ sqliKeywords.any
        (fun kw => hasSub kw (lowerStr (chars "<script>alert(1)</script> mysql"))) = true
    ∧ ∃ f, analyzeResponse ⟨chars "t", chars "u", chars "q", chars "GET", chars "x"⟩
          ⟨some (chars "<script>alert(1)</script> mysql"), none, some 200, none⟩ = some f ∧
        f.category = chars "Cross-Site Scripting (XSS)" := by
  refine ⟨rfl, by decide, by decide, ?_⟩
  exact c5_xss_priority ⟨chars "t", chars "u", chars "q", chars "GET", chars "x"⟩
    ⟨some (chars "<script>alert(1)</script> mysql"), none, some 200, none⟩
    (chars "<script>alert(1)</script> mysql") rfl (by decide) (by decide)

/-- C8: the classifier is a total Lean function over its input domain; in
particular a response with a missing or empty body (and arbitrary missing
headers/status/elapsed fields) yields no finding. -/
theorem c8_no_body_no_finding (tc : ScanTestCase) (r : ScanResponse)
    (h : r.body = none ∨ r.body = some []) :
    analyzeResponse tc r = none := by
  unfold analyzeResponse
  rcases h with h | h
  all_goals rw [h]
  all_goals simp

/-- Witness for `c8_no_body_no_finding` at a response with all fields
missing. -/
theorem c8_no_body_no_finding_witness :
    ((⟨none, none, none, none⟩ : ScanResponse).body = none
      ∨ (⟨none, none, none, none⟩ : ScanResponse).body = some [])
    ∧ analyzeResponse ⟨chars "t", chars "u", chars "q", chars "GET", chars "x"⟩
        ⟨none, none, none, none⟩ = none := by
  refine ⟨Or.inl rfl, ?_⟩
  exact c8_no_body_no_finding ⟨chars "t", chars "u", chars "q", chars "GET", chars "x"⟩
    ⟨none, none, none, none⟩ (Or.inl rfl)

/-! ## Crawler deduplication lemmas and claim C9 -/

lemma dedupFormsAux_key_not_seen {seen : List (Str × Str × Str)} {fs : List CForm}
    {f : CForm} (h : f ∈ dedupFormsAux seen fs) : formKey f ∉ seen := by
  induction fs generalizing seen with
  | nil => simp [dedupFormsAux] at h
  | cons g rest ih =>
    rw [dedupFormsAux] at h
    split at h
    · exact ih h
    · rename_i hns
      rcases List.mem_cons.mp h with h | h
      · subst h; exact hns
      · intro hmem
        exact (ih h) (List.mem_cons_of_mem _ hmem)

lemma dedupFormsAux_pairwise (seen : List (Str × Str × Str)) (fs : List CForm) :
    (dedupFormsAux seen fs).Pairwise (fun a b => formKey a ≠ formKey b) := by
  induction fs generalizing seen with
  | nil => simp [dedupFormsAux]
  | cons g rest ih =>
    rw [dedupFormsAux]
    split
    · exact ih seen
    · refine List.Pairwise.cons ?_ (ih _)
      intro b hb hkey
      exact (dedupFormsAux_key_not_seen hb) (by rw [← hkey]; exact List.mem_cons_self _ _)

lemma dedupParamsAux_url_not_seen {seen : List Str} {ps : List CParam}
    {p : CParam} (h : p ∈ dedupParamsAux seen ps) : p.url ∉ seen ∧ p.url ≠ [] := by
  induction ps generalizing seen with
  | nil => simp [dedupParamsAux] at h
  | cons q rest ih =>
    rw [dedupParamsAux] at h
    split at h
    · rename_i hc
      rcases List.mem_cons.mp h with h | h
      · subst h; exact ⟨hc.2, hc.1⟩
      · obtain ⟨h1, h2⟩ := ih h
        exact ⟨fun hm => h1 (List.mem_cons_of_mem _ hm), h2⟩
    · exact ih h

lemma dedupParamsAux_pairwise (seen : List Str) (ps : List CParam) :
    (dedupParamsAux seen ps).Pairwise (fun a b => a.url ≠ b.url) := by
  induction ps generalizing seen with
  | nil => simp [dedupParamsAux]
  | cons q rest ih =>
    rw [dedupParamsAux]
    split
    · refine List.Pairwise.cons ?_ (ih _)
      intro b hb hurl
      exact (dedupParamsAux_url_not_seen hb).1 (by rw [← hurl]; exact List.mem_cons_self _ _)
    · exact ih seen

lemma dedupParamsAux_first_wins {seen : List Str} {ps : List CParam}
    {p : CParam} (h : p ∈ dedupParamsAux seen ps) :
    ps.find? (fun q => q.url == p.url) = some p := by
  induction ps generalizing seen with
  | nil => simp [dedupParamsAux] at h
  | cons q rest ih =>
    rw [dedupParamsAux] at h
    split at h
    · rename_i hc
      rcases List.mem_cons.mp h with h | h
      · subst h
        simp [List.find?]
      · have hne : q.url ≠ p.url := by
          intro he
          exact (dedupParamsAux_url_not_seen h).1 (he ▸ List.mem_cons_self _ _)
        rw [List.find?]
        rw [show (q.url == p.url) = false from beq_eq_false_iff_ne.mpr hne]
        exact ih h
    · rename_i hc
      have hp := dedupParamsAux_url_not_seen h
      have hne : q.url ≠ p.url := by
        intro he
        rcases not_and_or.mp hc with hq | hq
        · exact hp.2 (by rw [← he]; exact not_not.mp hq)
        · exact hp.1 (by rw [← he]; exact not_not.mp hq)
      rw [List.find?]
      rw [show (q.url == p.url) = false from beq_eq_false_iff_ne.mpr hne]
      exact ih h

/-- C9: the deduplication stage of `crawl` guarantees that the returned
`forms` list has pairwise-distinct `(page_url, action_url, method)` keys,
that the returned `params` list has pairwise-distinct URLs, and that each
retained parameterized URL is the first entry of the input with that URL
(first occurrence wins). -/
theorem c9_dedup_unique (fs : List CForm) (ps : List CParam) :
    (dedupForms fs).Pairwise (fun a b => formKey a ≠ formKey b)
    ∧ (dedupParams ps).Pairwise (fun a b => a.url ≠ b.url)
    ∧ ∀ p ∈ dedupParams ps, ps.find? (fun q => q.url == p.url) = some p := by
  refine ⟨dedupFormsAux_pairwise [] fs, dedupParamsAux_pairwise [] ps, ?_⟩
  intro p hp
  exact dedupParamsAux_first_wins hp

/-- Witness for `c9_dedup_unique` on a parameter list with a duplicated URL:
the first occurrence (with param set `["a"]`) survives. -/
theorem c9_dedup_unique_witness :
    ((⟨chars "http://h/?a=1", [chars "a"]⟩ : CParam)
        ∈ dedupParams [⟨chars "http://h/?a=1", [chars "a"]⟩,
                       ⟨chars "http://h/?a=1", [chars "b"]⟩])
    ∧ ([⟨chars "http://h/?a=1", [chars "a"]⟩,
        ⟨chars "http://h/?a=1", [chars "b"]⟩] : List CParam).find?
          (fun q => q.url == (chars "http://h/?a=1"))
        = some ⟨chars "http://h/?a=1", [chars "a"]⟩ := by
  refine ⟨by decide, ?_⟩
  exact (c9_dedup_unique [] [⟨chars "http://h/?a=1", [chars "a"]⟩,
    ⟨chars "http://h/?a=1", [chars "b"]⟩]).2.2
    ⟨chars "http://h/?a=1", [chars "a"]⟩ (by decide)

/-! ## Payload catalog claim C10 -/

/-- C10: the payload catalogs for the `lab` and `all` profiles are
identical — both return the full default catalog, which includes the
`traversal` category. -/
theorem c10_lab_eq_all :
    getPayloads (chars "lab") = getPayloads (chars "all")
    ∧ getPayloads (chars "all") = some DEFAULT_PAYLOADS
    ∧ (DEFAULT_PAYLOADS.map (fun kv => kv.1)).contains (chars "traversal") = true := by
  refine ⟨by decide, by decide, by decide⟩

/-! ## Percent-encoding round trip on ASCII strings -/

lemma char_toNat_lt (c : Char) : c.toNat < 1114112 := by
  have h : c.toNat = c.val.toNat := rfl
  rcases c.valid with h1 | ⟨h1, h2⟩ <;> omega

lemma utf8Bytes_lt256 (c : Char) : ∀ b ∈ utf8Bytes c, b < 256 := by
  intro b hb
  have hv := char_toNat_lt c
  unfold utf8Bytes at hb
  split at hb
  · simp at hb; omega
  split at hb
  · simp at hb; rcases hb with rfl | rfl <;> omega
  split at hb
  · simp at hb; rcases hb with rfl | rfl | rfl <;> omega
  · simp at hb; rcases hb with rfl | rfl | rfl | rfl <;> omega

lemma hexDigitUpper_spec {x : Nat} (hx : x < 16) :
    isHexDigitCh (hexDigitUpper x) = true ∧ hexVal (hexDigitUpper x) = x ∧
    (hexDigitUpper x).isAlphanum = true ∧ hexDigitUpper x ≠ '+' ∧ hexDigitUpper x ≠ '%' := by
  interval_cases x <;> exact (by decide)

lemma quotePlusChar_ne_nil (c : Char) : quotePlusChar c ≠ [] := by
  unfold quotePlusChar
  split
  · simp
  split
  · simp
  · unfold utf8Bytes
    split
    · simp [percentByte]
    split
    · simp [percentByte]
    split
    · simp [percentByte]
    · simp [percentByte]

lemma mem_quotePlusChar {c c' : Char} (h : c' ∈ quotePlusChar c) :
    alwaysSafe c' = true ∨ c' = '+' ∨ c' = '%' := by
  unfold quotePlusChar at h
  split at h
  · rename_i hs
    rcases List.mem_singleton.mp h with rfl
    exact Or.inl hs
  split at h
  · rcases List.mem_singleton.mp h with rfl
    exact Or.inr (Or.inl rfl)
  · rcases List.mem_flatten.mp h with ⟨seg, hseg, hcs⟩
    rcases List.mem_map.mp hseg with ⟨b, hb, rfl⟩
    have hb256 : b < 256 := utf8Bytes_lt256 c b hb
    have h16a : b / 16 < 16 := by omega
    have h16b : b % 16 < 16 := by omega
    simp only [percentByte, List.mem_cons, List.not_mem_nil, or_false] at hcs
    rcases hcs with rfl | rfl | rfl
    · exact Or.inr (Or.inr rfl)
    · exact Or.inl (by simp [alwaysSafe, (hexDigitUpper_spec h16a).2.2.1])
    · exact Or.inl (by simp [alwaysSafe, (hexDigitUpper_spec h16b).2.2.1])

lemma mem_quotePlus {l : Str} {c' : Char} (h : c' ∈ quotePlus l) :
    alwaysSafe c' = true ∨ c' = '+' ∨ c' = '%' := by
  unfold quotePlus at h
  rcases List.mem_flatten.mp h with ⟨seg, hseg, hcs⟩
  rcases List.mem_map.mp hseg with ⟨c, _, rfl⟩
  exact mem_quotePlusChar hcs

/-- None of the characters `quote_plus` emits is a URL delimiter. -/
lemma quotePlus_no_delim {l : Str} {c' : Char} (h : c' ∈ quotePlus l) :
    c' ≠ '=' ∧ c' ≠ '&' ∧ c' ≠ '#' ∧ c' ≠ '?' ∧ c' ≠ '/' ∧ c' ≠ ';' ∧ c' ≠ ':' := by
  rcases mem_quotePlus h with hs | rfl | rfl
  · refine ⟨?_, ?_, ?_, ?_, ?_, ?_, ?_⟩ <;>
      (intro he; subst he; exact absurd hs (by decide))
  · exact (by decide)
  · exact (by decide)

lemma quotePlus_cons (c : Char) (l : Str) :
    quotePlus (c :: l) = quotePlusChar c ++ quotePlus l := by
  simp [quotePlus]

lemma quotePlus_ne_nil {l : Str} (h : l ≠ []) : quotePlus l ≠ [] := by
  cases l with
  | nil => exact absurd rfl h
  | cons c cs =>
    rw [quotePlus_cons]
    simp [quotePlusChar_ne_nil c]

lemma utf8Bytes_ascii {c : Char} (h : c.toNat < 128) : utf8Bytes c = [c.toNat] := by
  simp [utf8Bytes, h]

lemma utf8DecodeReplace_nil : utf8DecodeReplace [] = [] := by
  simp [utf8DecodeReplace]

lemma utf8DecodeReplace_cons_ascii {b : Nat} (rest : List Nat) (h : b < 128) :
    utf8DecodeReplace (b :: rest) = Char.ofNat b :: utf8DecodeReplace rest := by
  rw [utf8DecodeReplace]
  simp [h]

lemma utf8DecodeReplace_ascii :
    ∀ bs : List Nat, (∀ b ∈ bs, b < 128) → utf8DecodeReplace bs = bs.map Char.ofNat := by
  intro bs
  induction bs with
  | nil => intro _; exact utf8DecodeReplace_nil
  | cons b rest ih =>
    intro h
    rw [utf8DecodeReplace_cons_ascii rest (h b (List.mem_cons_self _ _))]
    rw [ih (fun x hx => h x (List.mem_cons_of_mem _ hx))]
    rfl

lemma unquoteAux_nil (pending : List Nat) :
    unquoteAux pending [] = utf8DecodeReplace pending.reverse := by
  simp [unquoteAux]

lemma unquoteAux_cons_lit (pending : List Nat) {c : Char} (rest : Str) (h : c ≠ '%') :
    unquoteAux pending (c :: rest)
      = utf8DecodeReplace pending.reverse ++ c :: unquoteAux [] rest := by
  rw [unquoteAux]
  simp [h]

lemma unquoteAux_cons_hex (pending : List Nat) {a b : Char} (rest2 : Str)
    (ha : isHexDigitCh a = true) (hb : isHexDigitCh b = true) :
    unquoteAux pending ('%' :: a :: b :: rest2)
      = unquoteAux (hexPairVal a b :: pending) rest2 := by
  rw [unquoteAux]
  simp [ha, hb]

lemma hexPair_val {b : Nat} (hb : b < 256) :
    hexPairVal (hexDigitUpper (b / 16)) (hexDigitUpper (b % 16)) = b := by
  have h1 : b / 16 < 16 := by omega
  have h2 : b % 16 < 16 := by omega
  unfold hexPairVal
  rw [(hexDigitUpper_spec h1).2.1, (hexDigitUpper_spec h2).2.1]
  omega

lemma alwaysSafe_ne {c : Char} (h : alwaysSafe c = true) : c ≠ '+' ∧ c ≠ '%' := by
  constructor <;> (intro he; subst he; exact absurd h (by decide))

lemma unquote_quote_aux :
    ∀ (l : Str) (pending : List Nat), (∀ c ∈ l, c.toNat < 128) → (∀ b ∈ pending, b < 128) →
      unquoteAux pending ((quotePlus l).map (fun c => if c == '+' then ' ' else c))
        = utf8DecodeReplace pending.reverse ++ l := by
  intro l
  induction l with
  | nil =>
    intro pending _ _
    simp [quotePlus, unquoteAux_nil]
  | cons c rest ih =>
    intro pending hl hp
    have hc : c.toNat < 128 := hl c (List.mem_cons_self _ _)
    have hrest : ∀ x ∈ rest, x.toNat < 128 := fun x hx => hl x (List.mem_cons_of_mem _ hx)
    rw [quotePlus_cons, List.map_append]
    by_cases hsafe : alwaysSafe c = true
    · have hqc : quotePlusChar c = [c] := by simp [quotePlusChar, hsafe]
      rw [hqc]
      have hnp : (c == '+') = false := beq_eq_false_iff_ne.mpr (alwaysSafe_ne hsafe).1
      simp only [List.map_cons, List.map_nil, List.cons_append, List.nil_append, hnp,
        Bool.false_eq_true, if_false]
      rw [unquoteAux_cons_lit pending _ (alwaysSafe_ne hsafe).2, ih [] hrest (by simp)]
      simp [utf8DecodeReplace_nil]
    · by_cases hsp : c = ' '
      · subst hsp
        have hqc : quotePlusChar ' ' = ['+'] := by decide
        rw [hqc]
        have hmap : List.map (fun c => if c == '+' then ' ' else c) ['+'] = [' '] := by decide
        rw [hmap]
        simp only [List.cons_append, List.nil_append]
        rw [unquoteAux_cons_lit pending _ (by decide : (' ' : Char) ≠ '%'),
          ih [] hrest (by simp)]
        simp [utf8DecodeReplace_nil]
      · have hqc : quotePlusChar c = percentByte c.toNat := by
          simp [quotePlusChar, hsafe, hsp, utf8Bytes_ascii hc, percentByte]
        rw [hqc]
        have h16a : c.toNat / 16 < 16 := by omega
        have h16b : c.toNat % 16 < 16 := by omega
        have ha := hexDigitUpper_spec h16a
        have hb := hexDigitUpper_spec h16b
        simp only [percentByte, List.map_cons, List.map_nil, List.cons_append, List.nil_append]
        rw [show ((('%' : Char) == '+')) = false from by decide]
        rw [beq_eq_false_iff_ne.mpr ha.2.2.2.1, beq_eq_false_iff_ne.mpr hb.2.2.2.1]
        simp only [Bool.false_eq_true, if_false]
        rw [unquoteAux_cons_hex pending _ ha.1 hb.1]
        rw [hexPair_val (by omega : c.toNat < 256)]
        rw [ih (c.toNat :: pending) hrest
          (by intro b hb'
              rcases List.mem_cons.mp hb' with rfl | hb'
              · exact hc
              · exact hp b hb')]
        rw [List.reverse_cons]
        rw [utf8DecodeReplace_ascii _ (by
          intro b hb'
          rcases List.mem_append.mp hb' with hb' | hb'
          · exact hp b (List.mem_reverse.mp hb')
          · rcases List.mem_singleton.mp hb' with rfl
            exact hc)]
        rw [utf8DecodeReplace_ascii _ (fun b hb' => hp b (List.mem_reverse.mp hb'))]
        rw [List.map_append]
        simp [Char.ofNat_toNat]

/-- `unquote_plus (quote_plus l) = l` for ASCII strings. -/
lemma unquotePlus_quotePlus {l : Str} (h : asciiStr l = true) :
    unquotePlus (quotePlus l) = l := by
  have h' : ∀ c ∈ l, c.toNat < 128 := by simpa [asciiStr, List.all_eq_true] using h
  unfold unquotePlus
  rw [unquote_quote_aux l [] h' (by simp)]
  simp [utf8DecodeReplace_nil]

lemma utf8DecodeReplace_ne_nil {bs : List Nat} (h : bs ≠ []) : utf8DecodeReplace bs ≠ [] := by
  cases bs with
  | nil => exact absurd rfl h
  | cons b rest =>
    rw [utf8DecodeReplace]
    split
    · simp
    split
    · split <;> simp
    split
    · split <;> simp
    split
    · split <;> simp
    · simp

lemma unquoteAux_ne_nil_aux :
    ∀ (n : Nat) (l : Str) (pending : List Nat), l.length ≤ n →
      (pending ≠ [] ∨ l ≠ []) → unquoteAux pending l ≠ [] := by
  intro n
  induction n with
  | zero =>
    intro l pending hlen h
    have hl : l = [] := List.eq_nil_of_length_eq_zero (Nat.le_zero.mp hlen)
    subst hl
    rw [unquoteAux_nil]
    refine utf8DecodeReplace_ne_nil ?_
    rcases h with h | h
    · simp [h]
    · exact absurd rfl h
  | succ n ih =>
    intro l pending hlen h
    cases l with
    | nil =>
      rw [unquoteAux_nil]
      refine utf8DecodeReplace_ne_nil ?_
      rcases h with h | h
      · simp [h]
      · exact absurd rfl h
    | cons c rest =>
      rw [unquoteAux]
      split
      · refine ih _ _ ?_ (Or.inl (by simp))
        have : rest.length ≤ n := by simpa using hlen
        have := List.length_drop 2 rest
        omega
      · simp

lemma unquoteAux_ne_nil {l : Str} {pending : List Nat}
    (h : pending ≠ [] ∨ l ≠ []) : unquoteAux pending l ≠ [] :=
  unquoteAux_ne_nil_aux l.length l pending le_rfl h

lemma unquotePlus_ne_nil {l : Str} (h : l ≠ []) : unquotePlus l ≠ [] := by
  unfold unquotePlus
  exact unquoteAux_ne_nil (Or.inr (by simpa using h))

/-! ## Lemmas on `splitSep`, `joinSep` and `breakAt` -/

lemma splitSep_cons_eq (sep c : Char) (cs : Str) {h : Str} {t : List Str}
    (hsp : splitSep sep cs = h :: t) :
    splitSep sep (c :: cs) = if c == sep then [] :: h :: t else (c :: h) :: t := by
  rw [splitSep, hsp]

lemma splitSep_ne_nil (sep : Char) (l : Str) : splitSep sep l ≠ [] := by
  induction l with
  | nil => simp [splitSep]
  | cons c cs ih =>
    cases hsp : splitSep sep cs with
    | nil => exact absurd hsp ih
    | cons h t =>
      rw [splitSep_cons_eq sep c cs hsp]
      split <;> simp

lemma splitSep_eq_single {sep : Char} {l : Str} (h : sep ∉ l) : splitSep sep l = [l] := by
  induction l with
  | nil => rfl
  | cons c cs ih =>
    obtain ⟨h1, h2⟩ := not_or.mp (by simpa [List.mem_cons] using h)
    rw [splitSep_cons_eq sep c cs (ih h2)]
    simp [beq_eq_false_iff_ne.mpr (Ne.symm h1)]

lemma splitSep_append {sep : Char} {a tail : Str} (h : sep ∉ a) :
    splitSep sep (a ++ sep :: tail) = a :: splitSep sep tail := by
  induction a with
  | nil =>
    simp only [List.nil_append]
    cases hsp : splitSep sep tail with
    | nil => exact absurd hsp (splitSep_ne_nil sep tail)
    | cons x t =>
      rw [splitSep_cons_eq sep sep tail hsp]
      simp [hsp]
  | cons c a' ih =>
    obtain ⟨h1, h2⟩ := not_or.mp (by simpa [List.mem_cons] using h)
    simp only [List.cons_append]
    cases hsp : splitSep sep (a' ++ sep :: tail) with
    | nil => exact absurd hsp (splitSep_ne_nil _ _)
    | cons x t =>
      rw [splitSep_cons_eq sep c _ hsp]
      have hthis := ih h2
      rw [hsp] at hthis
      injection hthis with e1 e2
      subst e1
      subst e2
      simp [beq_eq_false_iff_ne.mpr (Ne.symm h1)]

lemma joinSep_cons_cons (sep : Char) (f g : Str) (rest : List Str) :
    joinSep sep (f :: g :: rest) = f ++ sep :: joinSep sep (g :: rest) := by
  simp [joinSep]

lemma splitSep_joinSep {sep : Char} :
    ∀ {fields : List Str}, fields ≠ [] → (∀ f ∈ fields, sep ∉ f) →
      splitSep sep (joinSep sep fields) = fields := by
  intro fields
  induction fields with
  | nil => intro h _; exact absurd rfl h
  | cons f rest ih =>
    intro _ hno
    cases rest with
    | nil =>
      have : joinSep sep [f] = f := by simp [joinSep]
      rw [this, splitSep_eq_single (hno f (List.mem_cons_self _ _))]
    | cons g rest' =>
      rw [joinSep_cons_cons, splitSep_append (hno f (List.mem_cons_self _ _))]
      rw [ih (by simp) (fun x hx => hno x (List.mem_cons_of_mem _ hx))]

lemma breakAt_not_mem {sep : Char} {l : Str} (h : sep ∉ l) : breakAt sep l = (l, none) := by
  induction l with
  | nil => rfl
  | cons c cs ih =>
    obtain ⟨h1, h2⟩ := not_or.mp (by simpa [List.mem_cons] using h)
    rw [breakAt, if_neg (Ne.symm h1), ih h2]

lemma breakAt_append {sep : Char} {a b : Str} (h : sep ∉ a) :
    breakAt sep (a ++ sep :: b) = (a, some b) := by
  induction a with
  | nil => simp [breakAt]
  | cons c a' ih =>
    obtain ⟨h1, h2⟩ := not_or.mp (by simpa [List.mem_cons] using h)
    simp only [List.cons_append]
    rw [breakAt, if_neg (Ne.symm h1), ih h2]

lemma breakAt_fst_mem {sep : Char} :
    ∀ {l : Str} {c : Char}, c ∈ (breakAt sep l).1 → c ∈ l ∧ c ≠ sep := by
  intro l
  induction l with
  | nil => intro c hc; simp [breakAt] at hc
  | cons x cs ih =>
    intro c hc
    rw [breakAt] at hc
    split at hc
    · simp at hc
    · rename_i hx
      simp only [List.mem_cons] at hc ⊢
      rcases hc with rfl | hc
      · exact ⟨Or.inl rfl, hx⟩
      · obtain ⟨hm, hn⟩ := ih hc
        exact ⟨Or.inr hm, hn⟩

lemma breakAt_none {sep : Char} :
    ∀ {l : Str}, (breakAt sep l).2 = none → sep ∉ l ∧ (breakAt sep l).1 = l := by
  intro l
  induction l with
  | nil => intro _; simp [breakAt]
  | cons c cs ih =>
    intro h
    rw [breakAt] at h ⊢
    split at h
    · simp at h
    · rename_i hc
      simp only at h
      obtain ⟨hm, hf⟩ := ih h
      constructor
      · intro hmem
        rcases List.mem_cons.mp hmem with he | hmem2
        · exact hc he.symm
        · exact hm hmem2
      · simp only [hf]
        rw [if_neg hc]

lemma breakAt_eq_some {sep : Char} :
    ∀ {l a b : Str}, breakAt sep l = (a, some b) → l = a ++ sep :: b ∧ sep ∉ a := by
  intro l
  induction l with
  | nil => intro a b h; simp [breakAt] at h
  | cons c cs ih =>
    intro a b h
    rw [breakAt] at h
    split at h
    · rename_i hc
      injection h with e1 e2
      injection e2 with e3
      subst e1
      subst e3
      subst hc
      simp
    · rename_i hc
      cases hbk : breakAt sep cs with
      | mk a' ob =>
        rw [hbk] at h
        injection h with e1 e2
        subst e1
        cases ob with
        | none => simp at e2
        | some b' =>
          injection e2 with e3
          subst e3
          obtain ⟨he, hna⟩ := ih hbk
          constructor
          · rw [he]; simp
          · intro hmem
            rcases List.mem_cons.mp hmem with hx | hmem2
            · exact hc hx.symm
            · exact hna hmem2

lemma breakAtLast_eq_some {sep : Char} {l before after : Str}
    (h : breakAtLast sep l = some (before, after)) :
    l = before ++ sep :: after ∧ sep ∉ after := by
  unfold breakAtLast at h
  cases hbk : breakAt sep l.reverse with
  | mk a ob =>
    rw [hbk] at h
    cases ob with
    | none => simp at h
    | some b =>
      injection h with e1
      injection e1 with e2 e3
      subst e2
      subst e3
      obtain ⟨he, hna⟩ := breakAt_eq_some hbk
      constructor
      · have := congrArg List.reverse he
        simpa using this
      · simpa using hna

lemma breakAtLast_none {sep : Char} {l : Str} (h : breakAtLast sep l = none) : sep ∉ l := by
  unfold breakAtLast at h
  cases hbk : breakAt sep l.reverse with
  | mk a ob =>
    rw [hbk] at h
    cases ob with
    | some b => simp at h
    | none =>
      have := (breakAt_none (by rw [hbk] : (breakAt sep l.reverse).2 = none)).1
      simpa using this

/-! ## `parse_qs` is a left inverse of `urlencode` on well-formed dicts -/

lemma keysOf_nil : keysOf [] = [] := rfl

lemma keysOf_cons (kv : Str × List Str) (d : QDict) : keysOf (kv :: d) = kv.1 :: keysOf d := rfl

lemma keysOf_append (d e : QDict) : keysOf (d ++ e) = keysOf d ++ keysOf e := by
  simp [keysOf]

lemma keysOf_addToDict (d : QDict) (k v : Str) :
    keysOf (addToDict d k v) = if k ∈ keysOf d then keysOf d else keysOf d ++ [k] := by
  induction d with
  | nil => simp [addToDict, keysOf]
  | cons kv rest ih =>
    obtain ⟨k2, vs⟩ := kv
    by_cases hk : k2 = k
    · subst hk
      rw [addToDict, if_pos rfl]
      simp [keysOf_cons, List.mem_cons]
    · rw [addToDict, if_neg hk, keysOf_cons, keysOf_cons, ih]
      have hne : ¬(k = k2) := fun he => hk he.symm
      by_cases hmem : k ∈ keysOf rest
      · rw [if_pos hmem, if_pos (by simp [List.mem_cons, hmem])]
      · rw [if_neg hmem, if_neg (by simp [List.mem_cons, hne, hmem])]
        simp

lemma addToDict_nodup {d : QDict} {k v : Str} (h : (keysOf d).Nodup) :
    (keysOf (addToDict d k v)).Nodup := by
  rw [keysOf_addToDict]
  split
  · exact h
  · rename_i hmem
    simpa [List.nodup_append, hmem] using h

lemma addToDict_vals_ne_nil {d : QDict} {k v : Str} (hd : ∀ kv ∈ d, kv.2 ≠ []) :
    ∀ kv ∈ addToDict d k v, kv.2 ≠ [] := by
  induction d with
  | nil =>
    intro kv hkv
    rw [addToDict] at hkv
    rcases List.mem_singleton.mp hkv with rfl
    simp
  | cons kv0 rest ih =>
    obtain ⟨k2, vs⟩ := kv0
    intro kv hkv
    rw [addToDict] at hkv
    split at hkv
    · rcases List.mem_cons.mp hkv with rfl | hkv
      · simp
      · exact hd kv (List.mem_cons_of_mem _ hkv)
    · rcases List.mem_cons.mp hkv with rfl | hkv
      · exact hd (k2, vs) (List.mem_cons_self _ _)
      · exact ih (fun x hx => hd x (List.mem_cons_of_mem _ hx)) kv hkv

lemma addToDict_valpred {P : Str → Str → Prop} {d : QDict} {k v : Str}
    (hd : ∀ kv ∈ d, ∀ x ∈ kv.2, P kv.1 x) (hkv : P k v) :
    ∀ kv ∈ addToDict d k v, ∀ x ∈ kv.2, P kv.1 x := by
  induction d with
  | nil =>
    intro kv hkv'
    rw [addToDict] at hkv'
    rcases List.mem_singleton.mp hkv' with rfl
    intro x hx
    rcases List.mem_singleton.mp hx with rfl
    exact hkv
  | cons kv0 rest ih =>
    obtain ⟨k2, vs⟩ := kv0
    intro kv hkv'
    rw [addToDict] at hkv'
    split at hkv'
    · rename_i hkeq
      subst hkeq
      rcases List.mem_cons.mp hkv' with rfl | hkv'
      · intro x hx
        rcases List.mem_append.mp hx with hx | hx
        · exact hd (k2, vs) (List.mem_cons_self _ _) x hx
        · rcases List.mem_singleton.mp hx with rfl
          exact hkv
      · exact hd kv (List.mem_cons_of_mem _ hkv')
    · rcases List.mem_cons.mp hkv' with rfl | hkv'
      · exact hd (k2, vs) (List.mem_cons_self _ _)
      · exact ih (fun y hy => hd y (List.mem_cons_of_mem _ hy)) kv hkv'

lemma foldl_addToDict_nodup :
    ∀ (ps : List (Str × Str)) (acc : QDict), (keysOf acc).Nodup →
      (keysOf (ps.foldl (fun d kv => addToDict d kv.1 kv.2) acc)).Nodup := by
  intro ps
  induction ps with
  | nil => intro acc h; exact h
  | cons kv rest ih =>
    intro acc h
    exact ih _ (addToDict_nodup h)

lemma foldl_addToDict_vals_ne_nil :
    ∀ (ps : List (Str × Str)) (acc : QDict), (∀ kv ∈ acc, kv.2 ≠ []) →
      ∀ kv ∈ ps.foldl (fun d kv => addToDict d kv.1 kv.2) acc, kv.2 ≠ [] := by
  intro ps
  induction ps with
  | nil => intro acc h; exact h
  | cons kv rest ih =>
    intro acc h
    exact ih _ (addToDict_vals_ne_nil h)

lemma foldl_addToDict_valpred {P : Str → Str → Prop} :
    ∀ (ps : List (Str × Str)) (acc : QDict),
      (∀ kv ∈ acc, ∀ x ∈ kv.2, P kv.1 x) → (∀ kv ∈ ps, P kv.1 kv.2) →
      ∀ kv ∈ ps.foldl (fun d kv => addToDict d kv.1 kv.2) acc, ∀ x ∈ kv.2, P kv.1 x := by
  intro ps
  induction ps with
  | nil => intro acc h _; exact h
  | cons kv rest ih =>
    intro acc h hps
    exact ih _ (addToDict_valpred h (hps kv (List.mem_cons_self _ _)))
      (fun y hy => hps y (List.mem_cons_of_mem _ hy))

lemma parseQs_keys_nodup (q : Str) : (keysOf (parseQs q)).Nodup :=
  foldl_addToDict_nodup _ [] (by simp [keysOf])

lemma parseQsl_snd_ne_nil {q : Str} : ∀ kv ∈ parseQsl q, kv.2 ≠ [] := by
  intro kv hkv
  unfold parseQsl at hkv
  rcases List.mem_filterMap.mp hkv with ⟨f, _, hpf⟩
  unfold processField at hpf
  split at hpf
  · simp at hpf
  · split at hpf
    · simp at hpf
    · rename_i nm vl hb
      split at hpf
      · simp at hpf
      · rename_i hvl
        injection hpf with he
        subst he
        exact unquotePlus_ne_nil hvl

lemma parseQs_vals_ne_nil (q : Str) : ∀ kv ∈ parseQs q, kv.2 ≠ [] :=
  foldl_addToDict_vals_ne_nil _ [] (by simp)

lemma parseQs_valstr_ne_nil (q : Str) : ∀ kv ∈ parseQs q, ∀ v ∈ kv.2, v ≠ [] :=
  @foldl_addToDict_valpred (fun _ v => v ≠ []) (parseQsl q) []
    (by simp) (fun kv hkv => parseQsl_snd_ne_nil kv hkv)

lemma addToDict_not_mem {d : QDict} {k : Str} (v : Str) (h : k ∉ keysOf d) :
    addToDict d k v = d ++ [(k, [v])] := by
  induction d with
  | nil => rfl
  | cons kv rest ih =>
    obtain ⟨k2, vs⟩ := kv
    have hne : k2 ≠ k := by
      intro he
      exact h (by simp [keysOf_cons, he])
    rw [addToDict, if_neg hne, ih (fun hm => h (by simp [keysOf_cons, hm]))]
    simp

lemma addToDict_last {k : Str} (v : Str) :
    ∀ (d : QDict) (vs0 : List Str), k ∉ keysOf d →
      addToDict (d ++ [(k, vs0)]) k v = d ++ [(k, vs0 ++ [v])] := by
  intro d
  induction d with
  | nil => intro vs0 _; simp [addToDict]
  | cons kv rest ih =>
    obtain ⟨k2, vs⟩ := kv
    intro vs0 h
    have hne : k2 ≠ k := by
      intro he
      exact h (by simp [keysOf_cons, he])
    simp only [List.cons_append]
    rw [addToDict, if_neg hne, ih vs0 (fun hm => h (by simp [keysOf_cons, hm]))]

lemma foldl_addToDict_run {k : Str} :
    ∀ (vs : List Str) (acc : QDict) (vs0 : List Str), k ∉ keysOf acc →
      ((vs.map (fun v => (k, v))).foldl (fun d kv => addToDict d kv.1 kv.2) (acc ++ [(k, vs0)]))
        = acc ++ [(k, vs0 ++ vs)] := by
  intro vs
  induction vs with
  | nil => intro acc vs0 _; simp
  | cons v vs' ih =>
    intro acc vs0 h
    simp only [List.map_cons, List.foldl_cons]
    rw [addToDict_last v acc vs0 h, ih acc (vs0 ++ [v]) h]
    simp

lemma flattenD_nil : flattenD [] = [] := rfl

lemma flattenD_cons (k : Str) (vs : List Str) (d : QDict) :
    flattenD ((k, vs) :: d) = vs.map (fun v => (k, v)) ++ flattenD d := by
  simp [flattenD]

lemma foldl_addToDict_flatten :
    ∀ (d : QDict) (acc : QDict), (keysOf acc ++ keysOf d).Nodup → (∀ kv ∈ d, kv.2 ≠ []) →
      (flattenD d).foldl (fun d kv => addToDict d kv.1 kv.2) acc = acc ++ d := by
  intro d
  induction d with
  | nil => intro acc _ _; simp [flattenD_nil]
  | cons kv d' ih =>
    obtain ⟨k, vs⟩ := kv
    intro acc hnd hvl
    have hknacc : k ∉ keysOf acc := by
      rw [List.nodup_append] at hnd
      intro hm
      exact hnd.2.2 hm (by simp [keysOf_cons])
    obtain ⟨v0, vs', rfl⟩ : ∃ v0 vs', vs = v0 :: vs' := by
      cases vs with
      | nil => exact absurd rfl (hvl (k, []) (List.mem_cons_self _ _))
      | cons v0 vs' => exact ⟨v0, vs', rfl⟩
    rw [flattenD_cons, List.foldl_append]
    simp only [List.map_cons, List.foldl_cons]
    rw [addToDict_not_mem v0 hknacc, foldl_addToDict_run vs' acc [v0] hknacc]
    have hacc' : keysOf (acc ++ [(k, v0 :: vs')]) ++ keysOf d'
        = keysOf acc ++ k :: keysOf d' := by
      rw [keysOf_append]
      simp [keysOf]
    rw [show acc ++ [(k, [v0] ++ vs')] = acc ++ [(k, v0 :: vs')] from by simp]
    rw [ih (acc ++ [(k, v0 :: vs')])
      (by rw [hacc']; simpa [keysOf_cons] using hnd)
      (fun x hx => hvl x (List.mem_cons_of_mem _ hx))]
    simp

lemma groupPairs_flattenD {d : QDict} (hnd : (keysOf d).Nodup)
    (hvl : ∀ kv ∈ d, kv.2 ≠ []) : groupPairs (flattenD d) = d := by
  have h := foldl_addToDict_flatten d [] (by simpa [keysOf_nil] using hnd) hvl
  simpa [groupPairs] using h

lemma processField_enc {k v : Str} (hkasc : asciiStr k = true) (hvasc : asciiStr v = true)
    (hv : v ≠ []) : processField (quotePlus k ++ '=' :: quotePlus v) = some (k, v) := by
  have hne : quotePlus k ++ '=' :: quotePlus v ≠ [] := by simp
  have hb : breakAt '=' (quotePlus k ++ '=' :: quotePlus v) = (quotePlus k, some (quotePlus v)) :=
    breakAt_append (fun hmem => (quotePlus_no_delim hmem).1 rfl)
  unfold processField
  rw [if_neg hne, hb]
  simp only
  rw [if_neg (by simpa using quotePlus_ne_nil hv)]
  rw [unquotePlus_quotePlus hkasc, unquotePlus_quotePlus hvasc]

lemma filterMap_enc_vals {k : Str} (hk : asciiStr k = true) :
    ∀ (vs : List Str), (∀ v ∈ vs, v ≠ [] ∧ asciiStr v = true) →
      (vs.map (fun v => quotePlus k ++ '=' :: quotePlus v)).filterMap processField
        = vs.map (fun v => (k, v)) := by
  intro vs
  induction vs with
  | nil => intro _; rfl
  | cons v vs' ih =>
    intro h
    obtain ⟨hv, hvasc⟩ := h v (List.mem_cons_self _ _)
    simp only [List.map_cons]
    rw [List.filterMap_cons_some (processField_enc hk hvasc hv)]
    rw [ih (fun x hx => h x (List.mem_cons_of_mem _ hx))]

lemma parseQsl_urlencodeD {d : QDict}
    (hvl : ∀ kv ∈ d, kv.2 ≠ [])
    (hvs : ∀ kv ∈ d, ∀ v ∈ kv.2, v ≠ [])
    (hasc : ∀ kv ∈ d, asciiStr kv.1 = true ∧ ∀ v ∈ kv.2, asciiStr v = true) :
    parseQsl (urlencodeD d) = flattenD d := by
  cases d with
  | nil => rfl
  | cons kv0 d' =>
    obtain ⟨k0, vs0⟩ := kv0
    obtain ⟨v00, vs0', rfl⟩ : ∃ v00 vs0', vs0 = v00 :: vs0' := by
      cases vs0 with
      | nil => exact absurd rfl (hvl (k0, []) (List.mem_cons_self _ _))
      | cons v00 vs0' => exact ⟨v00, vs0', rfl⟩
    have hfne : ((((k0, v00 :: vs0') :: d').map
        (fun kv => kv.2.map (fun v => quotePlus kv.1 ++ '=' :: quotePlus v))).flatten) ≠ [] := by
      simp
    have hnoamp : ∀ f ∈ (((k0, v00 :: vs0') :: d').map
        (fun kv => kv.2.map (fun v => quotePlus kv.1 ++ '=' :: quotePlus v))).flatten,
        '&' ∉ f := by
      intro f hf hampf
      rcases List.mem_flatten.mp hf with ⟨seg, hseg, hfseg⟩
      rcases List.mem_map.mp hseg with ⟨kv, _, rfl⟩
      rcases List.mem_map.mp hfseg with ⟨v, _, rfl⟩
      rcases List.mem_append.mp hampf with hm | hm
      · exact (quotePlus_no_delim hm).2.1 rfl
      · rcases List.mem_cons.mp hm with he | hm
        · exact absurd he (by decide)
        · exact (quotePlus_no_delim hm).2.1 rfl
    unfold parseQsl urlencodeD
    rw [splitSep_joinSep hfne hnoamp]
    generalize hgen : (k0, v00 :: vs0') :: d' = dd at hvl hvs hasc
    clear hfne hnoamp hgen
    induction dd with
    | nil => rfl
    | cons kv rest ih =>
      obtain ⟨k, vs⟩ := kv
      simp only [List.map_cons, List.flatten_cons]
      rw [List.filterMap_append]
      rw [filterMap_enc_vals (hasc (k, vs) (List.mem_cons_self _ _)).1 vs
        (fun v hv => ⟨hvs (k, vs) (List.mem_cons_self _ _) v hv,
          (hasc (k, vs) (List.mem_cons_self _ _)).2 v hv⟩)]
      rw [ih (fun x hx => hvl x (List.mem_cons_of_mem _ hx))
        (fun x hx => hvs x (List.mem_cons_of_mem _ hx))
        (fun x hx => hasc x (List.mem_cons_of_mem _ hx))]
      rw [flattenD_cons]

/-- `parse_qs (urlencode d) = d` for a dict with distinct keys,
nonempty value lists, nonempty ASCII values and ASCII keys. -/
lemma parseQs_urlencodeD {d : QDict}
    (hnd : (keysOf d).Nodup)
    (hvl : ∀ kv ∈ d, kv.2 ≠ [])
    (hvs : ∀ kv ∈ d, ∀ v ∈ kv.2, v ≠ [])
    (hasc : ∀ kv ∈ d, asciiStr kv.1 = true ∧ ∀ v ∈ kv.2, asciiStr v = true) :
    parseQs (urlencodeD d) = d := by
  unfold parseQs
  rw [parseQsl_urlencodeD hvl hvs hasc]
  exact groupPairs_flattenD hnd hvl

/-! ## `setVal` preservation lemmas -/

lemma keysOf_setVal (d : QDict) (k : Str) (vs : List Str) :
    keysOf (setVal d k vs) = if k ∈ keysOf d then keysOf d else keysOf d ++ [k] := by
  induction d with
  | nil => simp [setVal, keysOf]
  | cons kv rest ih =>
    obtain ⟨k2, vs2⟩ := kv
    by_cases hk : k2 = k
    · subst hk
      rw [setVal, if_pos rfl]
      simp [keysOf_cons, List.mem_cons]
    · rw [setVal, if_neg hk, keysOf_cons, keysOf_cons, ih]
      have hne : ¬(k = k2) := fun he => hk he.symm
      by_cases hmem : k ∈ keysOf rest
      · rw [if_pos hmem, if_pos (by simp [List.mem_cons, hmem])]
      · rw [if_neg hmem, if_neg (by simp [List.mem_cons, hne, hmem])]
        simp

lemma setVal_nodup {d : QDict} {k : Str} {vs : List Str} (h : (keysOf d).Nodup) :
    (keysOf (setVal d k vs)).Nodup := by
  rw [keysOf_setVal]
  split
  · exact h
  · rename_i hmem
    simpa [List.nodup_append, hmem] using h

lemma mem_setVal {d : QDict} {k : Str} {vs : List Str} :
    ∀ {kv}, kv ∈ setVal d k vs → kv ∈ d ∨ kv = (k, vs) := by
  induction d with
  | nil =>
    intro kv h
    rw [setVal] at h
    exact Or.inr (List.mem_singleton.mp h)
  | cons kv0 rest ih =>
    obtain ⟨k2, vs2⟩ := kv0
    intro kv h
    rw [setVal] at h
    split at h
    · rename_i hkeq
      rcases List.mem_cons.mp h with rfl | h
      · exact Or.inr (by rw [hkeq])
      · exact Or.inl (List.mem_cons_of_mem _ h)
    · rcases List.mem_cons.mp h with rfl | h
      · exact Or.inl (List.mem_cons_self _ _)
      · rcases ih h with h | h
        · exact Or.inl (List.mem_cons_of_mem _ h)
        · exact Or.inr h

lemma setVal_ne_nil (d : QDict) (k : Str) (vs : List Str) : setVal d k vs ≠ [] := by
  cases d with
  | nil => simp [setVal]
  | cons kv rest =>
    obtain ⟨k2, vs2⟩ := kv
    rw [setVal]
    split <;> simp

lemma mem_joinSep {sep : Char} :
    ∀ {fields : List Str} {c : Char}, c ∈ joinSep sep fields →
      c = sep ∨ ∃ f ∈ fields, c ∈ f := by
  intro fields
  induction fields with
  | nil => intro c hc; simp [joinSep] at hc
  | cons f rest ih =>
    intro c hc
    cases rest with
    | nil =>
      rw [show joinSep sep [f] = f from by simp [joinSep]] at hc
      exact Or.inr ⟨f, List.mem_cons_self _ _, hc⟩
    | cons g rest' =>
      rw [joinSep_cons_cons] at hc
      rcases List.mem_append.mp hc with hm | hm
      · exact Or.inr ⟨f, List.mem_cons_self _ _, hm⟩
      · rcases List.mem_cons.mp hm with rfl | hm
        · exact Or.inl rfl
        · rcases ih hm with h | ⟨f', hf', hcf'⟩
          · exact Or.inl h
          · exact Or.inr ⟨f', List.mem_cons_of_mem _ hf', hcf'⟩

/-- Characters of an `urlencode` output: the separator `&`, the pair
separator `=`, or a `quote_plus` output character. -/
lemma mem_urlencodeD {d : QDict} {c : Char} (h : c ∈ urlencodeD d) :
    c = '&' ∨ c = '=' ∨ alwaysSafe c = true ∨ c = '+' ∨ c = '%' := by
  unfold urlencodeD at h
  rcases mem_joinSep h with rfl | ⟨f, hf, hcf⟩
  · exact Or.inl rfl
  · rcases List.mem_flatten.mp hf with ⟨seg, hseg, hfseg⟩
    rcases List.mem_map.mp hseg with ⟨kv, _, rfl⟩
    rcases List.mem_map.mp hfseg with ⟨v, _, rfl⟩
    rcases List.mem_append.mp hcf with hm | hm
    · exact Or.inr (Or.inr (mem_quotePlus hm))
    · rcases List.mem_cons.mp hm with rfl | hm
      · exact Or.inr (Or.inl rfl)
      · exact Or.inr (Or.inr (mem_quotePlus hm))

lemma urlencodeD_ne_nil {d : QDict} (hd : d ≠ []) (hvl : ∀ kv ∈ d, kv.2 ≠ []) :
    urlencodeD d ≠ [] := by
  cases d with
  | nil => exact absurd rfl hd
  | cons kv rest =>
    obtain ⟨k, vs⟩ := kv
    obtain ⟨v0, vs', rfl⟩ : ∃ v0 vs', vs = v0 :: vs' := by
      cases vs with
      | nil => exact absurd rfl (hvl (k, []) (List.mem_cons_self _ _))
      | cons v0 vs' => exact ⟨v0, vs', rfl⟩
    unfold urlencodeD
    simp only [List.map_cons, List.flatten_cons]
    simp [joinSep]

/-! ## `urlparse` invariants and reconstruction -/

lemma urlparseD_scheme (l default : Str) :
    (urlparseD l default).scheme = (splitScheme l default).1 := rfl

lemma urlparseD_netloc (l default : Str) :
    (urlparseD l default).netloc = (splitNetloc (splitScheme l default).2).1 := rfl

lemma urlparseD_path (l default : Str) :
    (urlparseD l default).path
      = (splitParams (breakAt '?' (breakAt '#' (splitNetloc (splitScheme l default).2).2).1).1).1 :=
  rfl

lemma urlparseD_params (l default : Str) :
    (urlparseD l default).params
      = (splitParams (breakAt '?' (breakAt '#' (splitNetloc (splitScheme l default).2).2).1).1).2 :=
  rfl

lemma urlparseD_query (l default : Str) :
    (urlparseD l default).query
      = ((breakAt '?' (breakAt '#' (splitNetloc (splitScheme l default).2).2).1).2).getD [] :=
  rfl

lemma urlparseD_fragment (l default : Str) :
    (urlparseD l default).fragment
      = ((breakAt '#' (splitNetloc (splitScheme l default).2).2).2).getD [] :=
  rfl

lemma takeWhile_append_all {p : Char → Bool} :
    ∀ {a : Str} (b : Str), (∀ c ∈ a, p c = true) → (a ++ b).takeWhile p = a ++ b.takeWhile p := by
  intro a
  induction a with
  | nil => intro b _; simp
  | cons c a' ih =>
    intro b h
    have hc : p c = true := h c (List.mem_cons_self _ _)
    simp only [List.cons_append, List.takeWhile_cons, hc]
    rw [ih b (fun x hx => h x (List.mem_cons_of_mem _ hx))]
    simp

lemma dropWhile_append_all {p : Char → Bool} :
    ∀ {a : Str} (b : Str), (∀ c ∈ a, p c = true) → (a ++ b).dropWhile p = b.dropWhile p := by
  intro a
  induction a with
  | nil => intro b _; simp
  | cons c a' ih =>
    intro b h
    have hc : p c = true := h c (List.mem_cons_self _ _)
    simp only [List.cons_append, List.dropWhile_cons, hc]
    exact ih b (fun x hx => h x (List.mem_cons_of_mem _ hx))

lemma dropWhile_head (p : Char → Bool) :
    ∀ l : Str, l.dropWhile p = [] ∨ p ((l.dropWhile p).headD ' ') = false := by
  intro l
  induction l with
  | nil => exact Or.inl rfl
  | cons c cs ih =>
    by_cases hc : p c = true
    · simpa [List.dropWhile_cons, hc] using ih
    · simp only [List.dropWhile_cons]
      rw [if_neg (by simp_all)]
      exact Or.inr (by simpa using hc)

lemma splitNetloc_fst_nodelim (r : Str) : ∀ c ∈ (splitNetloc r).1, netlocDelim c = false := by
  unfold splitNetloc
  split
  · intro c hc
    have := List.mem_takeWhile_imp hc
    simpa using this
  · intro c hc
    simp at hc

lemma splitNetloc_cases (r : Str) :
    ((splitNetloc r).1 = [] ∧ (splitNetloc r).2 = r)
    ∨ ((splitNetloc r).2 = [] ∨ netlocDelim ((splitNetloc r).2.headD ' ') = true) := by
  unfold splitNetloc
  split
  · rename_i rest
    right
    rcases dropWhile_head (fun c => !netlocDelim c) rest with h | h
    · exact Or.inl (by simp [h])
    · exact Or.inr (by simpa using h)
  · exact Or.inl ⟨rfl, rfl⟩

lemma breakAt_fst_head (sep : Char) (l : Str) :
    (breakAt sep l).1 = [] ∨ (breakAt sep l).1.headD ' ' = l.headD ' ' := by
  cases l with
  | nil => exact Or.inl rfl
  | cons c cs =>
    rw [breakAt]
    split
    · exact Or.inl rfl
    · cases hbk : breakAt sep cs with
      | mk a ob => exact Or.inr rfl

lemma breakAtLast_not_mem {sep : Char} {l : Str} (h : sep ∉ l) : breakAtLast sep l = none := by
  unfold breakAtLast
  rw [breakAt_not_mem (by simpa using h)]

lemma splitParams_fst_mem {l : Str} : ∀ c ∈ (splitParams l).1, c ∈ l := by
  intro c hc
  unfold splitParams at hc
  split at hc
  · rename_i before after hbl
    obtain ⟨hle, hns⟩ := breakAtLast_eq_some hbl
    split at hc
    · rename_i a b hbk
      simp only at hc
      rw [hle]
      rcases List.mem_append.mp hc with hm | hm
      · exact List.mem_append.mpr (Or.inl hm)
      · rcases List.mem_cons.mp hm with rfl | hm
        · exact List.mem_append.mpr (Or.inr (List.mem_cons_self _ _))
        · have ha : a = (breakAt ';' after).1 := by rw [hbk]
          have hmem := (breakAt_fst_mem (ha ▸ hm)).1
          exact List.mem_append.mpr (Or.inr (List.mem_cons_of_mem _ hmem))
    · simpa using hc
  · rename_i hbl
    split at hc
    · rename_i a b hbk
      simp only at hc
      have ha : a = (breakAt ';' l).1 := by rw [hbk]
      exact (breakAt_fst_mem (ha ▸ hc)).1
    · simpa using hc

lemma afterLastSlash_append {before a : Str} (h : '/' ∉ a) :
    afterLastSlash (before ++ '/' :: a) = a := by
  unfold afterLastSlash breakAtLast
  rw [show (before ++ '/' :: a).reverse = a.reverse ++ '/' :: before.reverse from by simp]
  rw [breakAt_append (by simpa using h)]
  simp

lemma afterLastSlash_not_mem {l : Str} (h : '/' ∉ l) : afterLastSlash l = l := by
  unfold afterLastSlash
  rw [breakAtLast_not_mem h]

lemma splitParams_noSemiTail (l : Str) : ';' ∉ afterLastSlash (splitParams l).1 := by
  unfold splitParams
  split
  · rename_i before after hbl
    obtain ⟨hle, hns⟩ := breakAtLast_eq_some hbl
    split
    · rename_i a b hbk
      simp only
      have ha : a = (breakAt ';' after).1 := by rw [hbk]
      have hnsa : '/' ∉ a := fun hm => hns (breakAt_fst_mem (ha ▸ hm)).1
      have hsemia : ';' ∉ a := fun hm => (breakAt_fst_mem (ha ▸ hm)).2 rfl
      rw [afterLastSlash_append hnsa]
      exact hsemia
    · rename_i x hbk
      simp only
      have hsem : ';' ∉ after := (breakAt_none (by rw [hbk])).1
      have hals : afterLastSlash l = after := by unfold afterLastSlash; rw [hbl]
      rw [hals]
      exact hsem
  · rename_i hbl
    split
    · rename_i a b hbk
      simp only
      have ha : a = (breakAt ';' l).1 := by rw [hbk]
      have hnsa : '/' ∉ a := fun hm => breakAtLast_none hbl (breakAt_fst_mem (ha ▸ hm)).1
      have hsemia : ';' ∉ a := fun hm => (breakAt_fst_mem (ha ▸ hm)).2 rfl
      rw [afterLastSlash_not_mem hnsa]
      exact hsemia
    · rename_i x hbk
      simp only
      have hsem : ';' ∉ l := (breakAt_none (by rw [hbk])).1
      rw [afterLastSlash_not_mem (breakAtLast_none hbl)]
      exact hsem

lemma splitParams_of_noSemiTail {l : Str} (h : ';' ∉ afterLastSlash l) :
    splitParams l = (l, []) := by
  unfold splitParams
  split
  · rename_i before after hbl
    have hals : afterLastSlash l = after := by unfold afterLastSlash; rw [hbl]
    rw [hals] at h
    split
    · rename_i a b hbk
      exfalso
      have he := (breakAt_eq_some hbk).1
      exact h (by rw [he]; simp)
    · rfl
  · rename_i hbl
    rw [afterLastSlash_not_mem (breakAtLast_none hbl)] at h
    split
    · rename_i a b hbk
      exfalso
      have he := (breakAt_eq_some hbk).1
      exact h (by rw [he]; simp)
    · rfl

lemma splitParams_fst_head (l : Str) :
    (splitParams l).1 = [] ∨ (splitParams l).1.headD ' ' = l.headD ' ' := by
  unfold splitParams
  split
  · rename_i before after hbl
    obtain ⟨hle, hns⟩ := breakAtLast_eq_some hbl
    split
    · rename_i a b hbk
      simp only
      right
      rw [hle]
      cases before with
      | nil => simp
      | cons c cs => simp
    · simp
  · rename_i hbl
    split
    · rename_i a b hbk
      simp only
      have ha : (breakAt ';' l).1 = a := by rw [hbk]
      rcases breakAt_fst_head ';' l with h | h
      · left; rw [← ha]; exact h
      · right; rw [← ha]; exact h
    · simp

/-! ## `urlparse` component invariants -/

lemma urlparse_netloc_nodelim (x default : Str) :
    ∀ c ∈ (urlparseD x default).netloc, netlocDelim c = false := by
  rw [urlparseD_netloc]
  exact splitNetloc_fst_nodelim _

lemma urlparse_path_no_delim (x default : Str) :
    '?' ∉ (urlparseD x default).path ∧ '#' ∉ (urlparseD x default).path := by
  rw [urlparseD_path]
  constructor
  · intro hm
    have h1 := splitParams_fst_mem _ hm
    exact (breakAt_fst_mem h1).2 rfl
  · intro hm
    have h1 := splitParams_fst_mem _ hm
    have h2 := (breakAt_fst_mem h1).1
    exact (breakAt_fst_mem h2).2 rfl

lemma urlparse_path_noSemiTail (x default : Str) :
    ';' ∉ afterLastSlash (urlparseD x default).path := by
  rw [urlparseD_path]
  exact splitParams_noSemiTail _

lemma urlparse_query_no_hash (x default : Str) : '#' ∉ (urlparseD x default).query := by
  rw [urlparseD_query]
  intro hm
  cases hq : breakAt '?' (breakAt '#' (splitNetloc (splitScheme x default).2).2).1 with
  | mk a ob =>
    rw [hq] at hm
    cases ob with
    | none => simp at hm
    | some b =>
      simp only [Option.getD_some] at hm
      have hsrc := (breakAt_eq_some hq).1
      have hnos : '#' ∉ (breakAt '#' (splitNetloc (splitScheme x default).2).2).1 :=
        fun hmm => (breakAt_fst_mem hmm).2 rfl
      apply hnos
      rw [hsrc]
      exact List.mem_append.mpr (Or.inr (List.mem_cons_of_mem _ hm))

lemma urlparse_path_head {x default : Str} (h : (urlparseD x default).netloc ≠ []) :
    (urlparseD x default).path = [] ∨ (urlparseD x default).path.headD ' ' = '/' := by
  rw [urlparseD_path]
  rw [urlparseD_netloc] at h
  rcases splitNetloc_cases (splitScheme x default).2 with ⟨h1, _⟩ | h2
  · exact absurd h1 h
  · rcases h2 with h2 | h2
    · rw [h2]
      left
      decide
    · cases hr2c : (splitNetloc (splitScheme x default).2).2 with
      | nil =>
        rw [hr2c] at h2
        simp [netlocDelim] at h2
      | cons c r2' =>
        rw [hr2c] at h2
        simp only [List.headD_cons] at h2
        have hcc : (c = '/' ∨ c = '?') ∨ c = '#' := by simpa [netlocDelim] using h2
        rcases hcc with (rfl | rfl) | rfl
        · -- head '/': fst of both breaks keeps head '/', splitParams keeps head
          have hb1 : breakAt '#' ('/' :: r2') = ('/' :: (breakAt '#' r2').1, (breakAt '#' r2').2) := by
            rw [breakAt, if_neg (by decide)]
          rw [hb1]
          simp only
          have hb2 : breakAt '?' ('/' :: (breakAt '#' r2').1)
              = ('/' :: (breakAt '?' (breakAt '#' r2').1).1, (breakAt '?' (breakAt '#' r2').1).2) := by
            rw [breakAt, if_neg (by decide)]
          rw [hb2]
          simp only
          rcases splitParams_fst_head ('/' :: (breakAt '?' (breakAt '#' r2').1).1) with hh | hh
          · exact Or.inl hh
          · right
            rw [hh]
            rfl
        · -- head '?': the path part is empty
          have hb1 : breakAt '#' ('?' :: r2') = ('?' :: (breakAt '#' r2').1, (breakAt '#' r2').2) := by
            rw [breakAt, if_neg (by decide)]
          rw [hb1]
          simp only
          have hb2 : breakAt '?' ('?' :: (breakAt '#' r2').1) = ([], some (breakAt '#' r2').1) := by
            rw [breakAt, if_pos rfl]
          rw [hb2]
          left
          exact (show (splitParams ([] : Str)).1 = [] by decide)
        · -- head '#': the pre-fragment part is empty
          have hb1 : breakAt '#' ('#' :: r2') = ([], some r2') := by
            rw [breakAt, if_pos rfl]
          rw [hb1]
          left
          exact (show (splitParams (breakAt '?' ([] : Str)).1).1 = [] by decide)

/-! ## Reconstruction: parsing a rebuilt `scheme://netloc{path}?query` URL -/

lemma splitScheme_http {s : Str} (hs : s = chars "http" ∨ s = chars "https")
    (R default : Str) : splitScheme (s ++ ':' :: R) default = (s, R) := by
  rcases hs with rfl | rfl
  · unfold splitScheme
    rw [breakAt_append (by decide)]
    simp only
    rw [if_pos (by decide), show lowerStr (chars "http") = chars "http" from by decide]
  · unfold splitScheme
    rw [breakAt_append (by decide)]
    simp only
    rw [if_pos (by decide), show lowerStr (chars "https") = chars "https" from by decide]

lemma takeDropWhile_head_delim {l : Str}
    (h : l = [] ∨ netlocDelim (l.headD ' ') = true) :
    l.takeWhile (fun c => !netlocDelim c) = [] ∧ l.dropWhile (fun c => !netlocDelim c) = l := by
  cases l with
  | nil => exact ⟨rfl, rfl⟩
  | cons c cs =>
    rcases h with h | h
    · simp at h
    · simp only [List.headD_cons] at h
      constructor
      · rw [List.takeWhile_cons, h]
        simp
      · rw [List.dropWhile_cons, h]
        simp

lemma splitNetloc_recon {nl rest : Str}
    (hnl : ∀ c ∈ nl, netlocDelim c = false)
    (hrest : rest = [] ∨ netlocDelim (rest.headD ' ') = true) :
    splitNetloc ('/' :: '/' :: (nl ++ rest)) = (nl, rest) := by
  have heq : splitNetloc ('/' :: '/' :: (nl ++ rest))
      = ((nl ++ rest).takeWhile (fun c => !netlocDelim c),
         (nl ++ rest).dropWhile (fun c => !netlocDelim c)) := rfl
  rw [heq]
  rw [takeWhile_append_all rest (fun c hc => by simp [hnl c hc])]
  rw [dropWhile_append_all rest (fun c hc => by simp [hnl c hc])]
  rw [(takeDropWhile_head_delim hrest).1, (takeDropWhile_head_delim hrest).2]
  simp

lemma urlparse_reconstruct {s nl p q : Str} (default : Str)
    (hs : s = chars "http" ∨ s = chars "https")
    (hnl : ∀ c ∈ nl, netlocDelim c = false)
    (hp1 : p = [] ∨ p.headD ' ' = '/')
    (hpq : '?' ∉ p) (hph : '#' ∉ p)
    (hsemi : ';' ∉ afterLastSlash p)
    (hq : '#' ∉ q) :
    urlparseD (s ++ ':' :: '/' :: '/' :: (nl ++ (p ++ (if q = [] then [] else '?' :: q))))
        default
      = ⟨s, nl, p, [], q, []⟩ := by
  by_cases hq0 : q = []
  · subst hq0
    rw [if_pos rfl, List.append_nil]
    have hrest : p = [] ∨ netlocDelim (p.headD ' ') = true := by
      rcases hp1 with rfl | hp1
      · exact Or.inl rfl
      · cases p with
        | nil => exact Or.inl rfl
        | cons c t =>
          simp only [List.headD_cons] at hp1
          subst hp1
          right
          simp [netlocDelim]
    simp only [urlparseD, UrlParts.mk.injEq]
    rw [splitScheme_http hs _ default]
    simp only
    rw [splitNetloc_recon hnl hrest]
    simp only
    rw [breakAt_not_mem hph]
    simp only [Option.getD_none]
    rw [breakAt_not_mem hpq]
    simp only [Option.getD_none]
    rw [splitParams_of_noSemiTail hsemi]
    simp
  · rw [if_neg hq0]
    have hrest : (p ++ '?' :: q) = []
        ∨ netlocDelim ((p ++ '?' :: q).headD ' ') = true := by
      right
      cases p with
      | nil => simp [netlocDelim]
      | cons c t =>
        rcases hp1 with hp1 | hp1
        · simp at hp1
        · simp only [List.headD_cons] at hp1
          subst hp1
          simp [netlocDelim]
    have hnoh : '#' ∉ (p ++ '?' :: q) := by
      intro hm
      rcases List.mem_append.mp hm with hm | hm
      · exact hph hm
      · rcases List.mem_cons.mp hm with he | hm
        · exact absurd he (by decide)
        · exact hq hm
    simp only [urlparseD, UrlParts.mk.injEq]
    rw [splitScheme_http hs _ default]
    simp only
    rw [splitNetloc_recon hnl hrest]
    simp only
    rw [breakAt_not_mem hnoh]
    simp only [Option.getD_none]
    rw [breakAt_append hpq]
    simp only [Option.getD_some]
    rw [splitParams_of_noSemiTail hsemi]
    simp

/-! ## `setVal` membership and `urlencode` character helpers -/

lemma mem_setVal_of_ne {d : QDict} {k : Str} {vs : List Str} :
    ∀ {kv}, kv ∈ d → kv.1 ≠ k → kv ∈ setVal d k vs := by
  induction d with
  | nil =>
    intro kv h _
    simp at h
  | cons kv0 rest ih =>
    obtain ⟨k2, vs2⟩ := kv0
    intro kv h hne
    rw [setVal]
    split
    · rename_i hkeq
      rcases List.mem_cons.mp h with rfl | h
      · exact absurd hkeq hne
      · exact List.mem_cons_of_mem _ h
    · rcases List.mem_cons.mp h with rfl | h
      · exact List.mem_cons_self _ _
      · exact List.mem_cons_of_mem _ (ih h hne)

lemma self_mem_setVal (d : QDict) (k : Str) (vs : List Str) :
    (k, vs) ∈ setVal d k vs := by
  induction d with
  | nil => simp [setVal]
  | cons kv0 rest ih =>
    obtain ⟨k2, vs2⟩ := kv0
    rw [setVal]
    split
    · rename_i hkeq
      subst hkeq
      exact List.mem_cons_self _ _
    · exact List.mem_cons_of_mem _ ih

lemma hash_not_mem_urlencodeD (d : QDict) : '#' ∉ urlencodeD d := by
  intro h
  rcases mem_urlencodeD h with h | h | h | h | h <;> exact absurd h (by decide)

/-! ## Round trips through `urlunparse` and self-joins -/

lemma urlunparse_recon {s nl p q : Str} (hs0 : s ≠ []) (hnl0 : nl ≠ [])
    (hp1 : p = [] ∨ p.headD ' ' = '/') :
    urlunparse ⟨s, nl, p, [], q, []⟩
      = s ++ ':' :: '/' :: '/' :: (nl ++ (p ++ (if q = [] then [] else '?' :: q))) := by
  have hp1' : p = [] ∨ (p.head?).getD ' ' = '/' := by
    rcases hp1 with rfl | hp1
    · exact Or.inl rfl
    · exact Or.inr (by simpa using hp1)
  by_cases hq0 : q = []
  · subst hq0
    rcases hp1' with rfl | hp1'
    · simp [urlunparse, urlunsplit, hnl0, hs0]
    · simp [urlunparse, urlunsplit, hnl0, hs0, hp1']
  · rcases hp1' with rfl | hp1'
    · simp [urlunparse, urlunsplit, hnl0, hs0, hq0]
    · simp [urlunparse, urlunsplit, hnl0, hs0, hp1', hq0]

lemma urljoin_self {s nl p q : Str}
    (hs : s = chars "http" ∨ s = chars "https")
    (hnl : ∀ c ∈ nl, netlocDelim c = false) (hnl0 : nl ≠ [])
    (hp1 : p = [] ∨ p.headD ' ' = '/')
    (hpq : '?' ∉ p) (hph : '#' ∉ p) (hsemi : ';' ∉ afterLastSlash p)
    (hq : '#' ∉ q) :
    urljoin (s ++ ':' :: '/' :: '/' :: (nl ++ (p ++ (if q = [] then [] else '?' :: q))))
            (s ++ ':' :: '/' :: '/' :: (nl ++ (p ++ (if q = [] then [] else '?' :: q))))
      = s ++ ':' :: '/' :: '/' :: (nl ++ (p ++ (if q = [] then [] else '?' :: q))) := by
  have hs0 : s ≠ [] := by rcases hs with rfl | rfl <;> decide
  have ho : s ++ ':' :: '/' :: '/' :: (nl ++ (p ++ (if q = [] then [] else '?' :: q))) ≠ [] := by
    rcases hs with rfl | rfl <;> simp
  have hP : ∀ d, urlparseD
      (s ++ ':' :: '/' :: '/' :: (nl ++ (p ++ (if q = [] then [] else '?' :: q)))) d
      = ⟨s, nl, p, [], q, []⟩ :=
    fun d => urlparse_reconstruct d hs hnl hp1 hpq hph hsemi hq
  have hrel : s ∈ usesRelative := by rcases hs with rfl | rfl <;> decide
  have hnet : s ∈ usesNetloc := by rcases hs with rfl | rfl <;> decide
  unfold urljoin
  rw [if_neg ho, if_neg ho]
  simp only [hP]
  rw [if_neg (by simp [hrel])]
  rw [if_pos ⟨hnet, hnl0⟩]
  exact urlunparse_recon hs0 hnl0 hp1

/-! ## Concrete `parse_qs` values, via the round trip -/

lemma parseQs_of_urlencodeD {d : QDict} {q : Str}
    (hnd : (keysOf d).Nodup)
    (hvl : ∀ kv ∈ d, kv.2 ≠ [])
    (hvs : ∀ kv ∈ d, ∀ v ∈ kv.2, v ≠ [])
    (hasc : ∀ kv ∈ d, asciiStr kv.1 = true ∧ ∀ v ∈ kv.2, asciiStr v = true)
    (henc : urlencodeD d = q) :
    parseQs q = d := by
  rw [← henc]
  exact parseQs_urlencodeD hnd hvl hvs hasc

lemma parseQs_q1page1 :
    parseQs (chars "q=1&page=1") = [(chars "q", [chars "1"]), (chars "page", [chars "1"])] :=
  @parseQs_of_urlencodeD [(chars "q", [chars "1"]), (chars "page", [chars "1"])]
    (chars "q=1&page=1") (by decide) (by decide) (by decide) (by decide) (by decide)

lemma parseQs_id123 : parseQs (chars "id=123") = [(chars "id", [chars "123"])] :=
  @parseQs_of_urlencodeD [(chars "id", [chars "123"])] (chars "id=123")
    (by decide) (by decide) (by decide) (by decide) (by decide)

lemma parseQs_idabc : parseQs (chars "id=abc") = [(chars "id", [chars "abc"])] :=
  @parseQs_of_urlencodeD [(chars "id", [chars "abc"])] (chars "id=abc")
    (by decide) (by decide) (by decide) (by decide) (by decide)

/-! ## C3: the test-URL builder preserves scheme, netloc, path and the
untargeted parameters -/

/-- C3: building a test URL from `scheme://netloc{path}?query` with a literal
payload in a non-`idor_numeric` category succeeds, preserves the scheme,
netloc and path, and the query of the result parses back to the original
parameter dict with only the target parameter overwritten by the payload:
every other parameter survives unmodified and the target holds exactly the
payload value. -/
theorem c3_build_test_url {s nl p qs pn pv note cat : Str}
    (hs : s = chars "http" ∨ s = chars "https")
    (hnl : ∀ c ∈ nl, netlocDelim c = false) (hnl0 : nl ≠ [])
    (hp1 : p = [] ∨ p.headD ' ' = '/')
    (hpq : '?' ∉ p) (hph : '#' ∉ p) (hsemi : ';' ∉ afterLastSlash p)
    (hq : '#' ∉ qs)
    (hcat : cat ≠ chars "idor_numeric")
    (hpnA : asciiStr pn = true) (hpvA : asciiStr pv = true) (hpv0 : pv ≠ [])
    (hQasc : ∀ kv ∈ parseQs qs, asciiStr kv.1 = true ∧ ∀ v ∈ kv.2, asciiStr v = true) :
    ∃ newUrl,
      buildTestUrl (s ++ ':' :: '/' :: '/' :: (nl ++ (p ++ (if qs = [] then [] else '?' :: qs))))
          pn (.literal pv note) cat = some newUrl
      ∧ (urlparse newUrl).scheme = s
      ∧ (urlparse newUrl).netloc = nl
      ∧ (urlparse newUrl).path = p
      ∧ parseQs (urlparse newUrl).query = setVal (parseQs qs) pn [pv]
      ∧ (∀ kv ∈ parseQs qs, kv.1 ≠ pn → kv ∈ parseQs (urlparse newUrl).query)
      ∧ (pn, [pv]) ∈ parseQs (urlparse newUrl).query := by
  have hs0 : s ≠ [] := by rcases hs with rfl | rfl <;> decide
  have hP0 : urlparse
      (s ++ ':' :: '/' :: '/' :: (nl ++ (p ++ (if qs = [] then [] else '?' :: qs))))
      = ⟨s, nl, p, [], qs, []⟩ :=
    urlparse_reconstruct [] hs hnl hp1 hpq hph hsemi hq
  have hget : getPayloadValue cat (.literal pv note) (parseQs qs) pn = some pv := by
    unfold getPayloadValue
    rw [if_neg hcat]
  have hvl : ∀ kv ∈ setVal (parseQs qs) pn [pv], kv.2 ≠ [] := by
    intro kv hkv
    rcases mem_setVal hkv with h | rfl
    · exact parseQs_vals_ne_nil qs kv h
    · simp
  have hvs : ∀ kv ∈ setVal (parseQs qs) pn [pv], ∀ v ∈ kv.2, v ≠ [] := by
    intro kv hkv v hv
    rcases mem_setVal hkv with h | rfl
    · exact parseQs_valstr_ne_nil qs kv h v hv
    · rcases List.mem_singleton.mp hv with rfl
      exact hpv0
  have hasc : ∀ kv ∈ setVal (parseQs qs) pn [pv],
      asciiStr kv.1 = true ∧ ∀ v ∈ kv.2, asciiStr v = true := by
    intro kv hkv
    rcases mem_setVal hkv with h | rfl
    · exact hQasc kv h
    · refine ⟨hpnA, ?_⟩
      intro v hv
      rcases List.mem_singleton.mp hv with rfl
      exact hpvA
  have hQne : urlencodeD (setVal (parseQs qs) pn [pv]) ≠ [] :=
    urlencodeD_ne_nil (setVal_ne_nil _ _ _) hvl
  have hQnh : '#' ∉ urlencodeD (setVal (parseQs qs) pn [pv]) := hash_not_mem_urlencodeD _
  have hun : urlunparse ⟨s, nl, p, [], urlencodeD (setVal (parseQs qs) pn [pv]), []⟩
      = s ++ ':' :: '/' :: '/' :: (nl ++ (p ++
          (if urlencodeD (setVal (parseQs qs) pn [pv]) = [] then []
           else '?' :: urlencodeD (setVal (parseQs qs) pn [pv])))) :=
    urlunparse_recon hs0 hnl0 hp1
  have hP1 : urlparse (s ++ ':' :: '/' :: '/' :: (nl ++ (p ++
      (if urlencodeD (setVal (parseQs qs) pn [pv]) = [] then []
       else '?' :: urlencodeD (setVal (parseQs qs) pn [pv])))))
      = ⟨s, nl, p, [], urlencodeD (setVal (parseQs qs) pn [pv]), []⟩ :=
    urlparse_reconstruct [] hs hnl hp1 hpq hph hsemi hQnh
  have hround : parseQs (urlencodeD (setVal (parseQs qs) pn [pv]))
      = setVal (parseQs qs) pn [pv] :=
    parseQs_urlencodeD (setVal_nodup (parseQs_keys_nodup qs)) hvl hvs hasc
  refine ⟨urlunparse ⟨s, nl, p, [], urlencodeD (setVal (parseQs qs) pn [pv]), []⟩,
    ?_, ?_, ?_, ?_, ?_, ?_, ?_⟩
  · simp only [buildTestUrl, hP0]
    rw [hget]
    rfl
  · rw [hun, hP1]
  · rw [hun, hP1]
  · rw [hun, hP1]
  · rw [hun, hP1]
    exact hround
  · intro kv hkv hne
    rw [hun, hP1]
    simp only
    rw [hround]
    exact mem_setVal_of_ne hkv hne
  · rw [hun, hP1]
    simp only
    rw [hround]
    exact self_mem_setVal _ _ _

theorem c3_build_test_url_witness :
    buildTestUrl (chars "http://x.test/search?q=1&page=1") (chars "q")
        (.literal (sq :: chars " OR 1=1--") []) (chars "sqli")
      = some (chars "http://x.test/search?q=%27+OR+1%3D1--&page=1")
    ∧ ∃ newUrl,
      buildTestUrl (chars "http://x.test/search?q=1&page=1") (chars "q")
          (.literal (sq :: chars " OR 1=1--") []) (chars "sqli") = some newUrl
      ∧ (urlparse newUrl).scheme = chars "http"
      ∧ (urlparse newUrl).netloc = chars "x.test"
      ∧ (urlparse newUrl).path = chars "/search"
      ∧ parseQs (urlparse newUrl).query
          = setVal (parseQs (chars "q=1&page=1")) (chars "q") [sq :: chars " OR 1=1--"]
      ∧ (∀ kv ∈ parseQs (chars "q=1&page=1"), kv.1 ≠ chars "q" →
          kv ∈ parseQs (urlparse newUrl).query)
      ∧ (chars "q", [sq :: chars " OR 1=1--"]) ∈ parseQs (urlparse newUrl).query := by
  constructor
  · have h1 : urlparse (chars "http://x.test/search?q=1&page=1")
        = ⟨chars "http", chars "x.test", chars "/search", [], chars "q=1&page=1", []⟩ := by
      decide
    simp only [buildTestUrl, h1]
    rw [parseQs_q1page1]
    decide
  · exact @c3_build_test_url (chars "http") (chars "x.test") (chars "/search")
      (chars "q=1&page=1") (chars "q") (sq :: chars " OR 1=1--") [] (chars "sqli")
      (Or.inl rfl) (by decide) (by decide) (Or.inr (by decide)) (by decide) (by decide)
      (by decide) (by decide) (by decide) (by decide) (by decide) (by decide)
      (by rw [parseQs_q1page1]; decide)

/-! ## C4: the `idor_numeric` payload values -/

/-- C4: for an `idor_numeric` payload of kind `adjacent` the builder parses
the original value of the target parameter as a Python integer and adds
`delta`; when that parse fails it falls back to `delta` itself, stringified;
for the fixed-value kinds (`large`, `negative`) the payload value is used
directly.  In particular `id=123` with delta 1 becomes `id=124` and the
non-numeric `id=abc` becomes `id=1`. -/
theorem c4_idor_payload_value :
    (∀ (d : QDict) (pn note : Str) (delta n : Int),
      pythonInt ((((d.find? (fun kv => kv.1 = pn)).map (fun kv => kv.2)).getD
          [chars "1"]).headD []) = some n →
      getPayloadValue (chars "idor_numeric") (.idorAdjacent delta note) d pn
        = some (chars (toString (n + delta))))
    ∧ (∀ (d : QDict) (pn note : Str) (delta : Int),
      pythonInt ((((d.find? (fun kv => kv.1 = pn)).map (fun kv => kv.2)).getD
          [chars "1"]).headD []) = none →
      getPayloadValue (chars "idor_numeric") (.idorAdjacent delta note) d pn
        = some (chars (toString delta)))
    ∧ (∀ (d : QDict) (pn kind note : Str) (v : Int),
      getPayloadValue (chars "idor_numeric") (.idorValue kind v note) d pn
        = some (chars (toString v)))
    ∧ buildTestUrl (chars "http://x.test/item?id=123") (chars "id")
        (.idorAdjacent 1 []) (chars "idor_numeric")
      = some (chars "http://x.test/item?id=124")
    ∧ buildTestUrl (chars "http://x.test/item?id=abc") (chars "id")
        (.idorAdjacent 1 []) (chars "idor_numeric")
      = some (chars "http://x.test/item?id=1") := by
  have h123 : urlparse (chars "http://x.test/item?id=123")
      = ⟨chars "http", chars "x.test", chars "/item", [], chars "id=123", []⟩ := by decide
  have habc : urlparse (chars "http://x.test/item?id=abc")
      = ⟨chars "http", chars "x.test", chars "/item", [], chars "id=abc", []⟩ := by decide
  refine ⟨?_, ?_, ?_,
    by simp only [buildTestUrl, h123]
       rw [parseQs_id123]
       decide,
    by simp only [buildTestUrl, habc]
       rw [parseQs_idabc]
       decide⟩
  · intro d pn note delta n hov
    unfold getPayloadValue
    rw [if_pos rfl]
    simp only
    rw [hov]
  · intro d pn note delta hov
    unfold getPayloadValue
    rw [if_pos rfl]
    simp only
    rw [hov]
  · intro d pn kind note v
    unfold getPayloadValue
    rw [if_pos rfl]

theorem c4_idor_payload_value_witness :
    getPayloadValue (chars "idor_numeric") (.idorAdjacent 1 [])
        [(chars "id", [chars "123"])] (chars "id")
      = some (chars (toString ((123 : Int) + 1))) :=
  c4_idor_payload_value.1 [(chars "id", [chars "123"])] (chars "id") [] 1 123 (by decide)

/-! ## C6: where `idor_numeric` test cases can come from -/

/-- C6: every `idor_numeric` test case produced by the parameter-based
generator targets a parameter name matching the numeric heuristic, and the
form-based generator never emits an `idor_numeric` test case at all. -/
theorem c6_idor_numeric_sources (params : List CParam) (forms : List CForm)
    (payloads : List (Str × List PayloadItem)) (maxPerParam maxSamples : Nat) :
    (∀ tc ∈ generateTestsFromParams params payloads maxPerParam,
        tc.category = chars "idor_numeric" → isNumericParam tc.param = true)
    ∧ ∀ tc ∈ generateTestsFromForms forms payloads maxSamples,
        tc.category ≠ chars "idor_numeric" := by
  constructor
  · intro tc htc hcat
    simp only [generateTestsFromParams, List.mem_flatMap] at htc
    obtain ⟨pi, hpi, pn, hpn, cp, hcp, htc⟩ := htc
    by_cases hcond : cp.1 = chars "idor_numeric" ∧ isNumericParam pn = false
    · rw [if_pos hcond] at htc
      simp at htc
    · rw [if_neg hcond] at htc
      rcases List.mem_map.mp htc with ⟨item, _, rfl⟩
      change cp.1 = chars "idor_numeric" at hcat
      show isNumericParam pn = true
      rcases Bool.eq_false_or_eq_true (isNumericParam pn) with ht | hf
      · exact ht
      · exact absurd ⟨hcat, hf⟩ hcond
  · intro tc htc
    simp only [generateTestsFromForms, List.mem_flatMap] at htc
    obtain ⟨f, hf, inp, hinp, cp, hcp, htc⟩ := htc
    by_cases hcond : cp.1 = chars "idor_numeric"
    · rw [if_pos hcond] at htc
      simp at htc
    · rw [if_neg hcond] at htc
      rcases List.mem_map.mp htc with ⟨item, _, rfl⟩
      show cp.1 ≠ chars "idor_numeric"
      exact hcond

theorem c6_idor_numeric_sources_witness :
    isNumericParam (chars "id") = true
    ∧ chars "sqli" ≠ chars "idor_numeric" := by
  constructor
  · exact (c6_idor_numeric_sources
      [⟨chars "http://x.test/item?id=1", [chars "id"]⟩] []
      [(chars "idor_numeric", [.idorAdjacent 1 []])] 1 1).1
      ⟨chars "GET",
       buildTestUrl (chars "http://x.test/item?id=1") (chars "id")
         (.idorAdjacent 1 []) (chars "idor_numeric"),
       chars "id", .idorAdjacent 1 [], chars "param", chars "idor_numeric",
       isLabOnlyPayload (chars "idor_numeric") (.idorAdjacent 1 [])⟩
      (List.mem_singleton.mpr rfl) rfl
  · exact (c6_idor_numeric_sources [] 
      [⟨chars "http://x.test/", chars "http://x.test/login", chars "post", [chars "user"]⟩]
      [(chars "sqli", [.literal (sq :: chars " OR 1=1--") []])] 1 1).2
      ⟨upperStr (chars "post"), some (chars "http://x.test/login"), chars "user",
       .literal (sq :: chars " OR 1=1--") [], chars "form", chars "sqli",
       isLabOnlyPayload (chars "sqli") (.literal (sq :: chars " OR 1=1--") [])⟩
      (List.mem_singleton.mpr rfl)

/-! ## C7: idempotence of the two `normalize_url` revisions -/

lemma trimWs_cons_ne_nil {c : Char} {t : Str} (h : wsChar c = false) :
    trimWs (c :: t) ≠ [] := by
  intro hnil
  have h1 : ((c :: t).dropWhile wsChar).reverse.dropWhile wsChar = [] := by
    unfold trimWs at hnil
    exact List.reverse_eq_nil_iff.mp hnil
  rw [List.dropWhile_cons, if_neg (by simp [h])] at h1
  have h3 := List.dropWhile_eq_nil_iff.mp h1 c (by simp)
  exact absurd h3 (by simp [h])

lemma chars_colonSlashSlash : chars "://" = [':', '/', '/'] := rfl

lemma normalizeUrl1_eq_some {url baseUrl o : Str} (h : normalizeUrl1 url baseUrl = some o) :
    ((urlparse (urljoin baseUrl url)).scheme = chars "http"
      ∨ (urlparse (urljoin baseUrl url)).scheme = chars "https")
    ∧ o = (urlparse (urljoin baseUrl url)).scheme ++ chars "://"
        ++ (urlparse (urljoin baseUrl url)).netloc
        ++ (if (urlparse (urljoin baseUrl url)).path = [] then [ '/' ]
            else (urlparse (urljoin baseUrl url)).path)
        ++ (if (urlparse (urljoin baseUrl url)).query ≠ []
            then '?' :: (urlparse (urljoin baseUrl url)).query else []) := by
  unfold normalizeUrl1 at h
  split at h
  · exact absurd h (by simp)
  · dsimp only at h
    split at h
    · rename_i hsch
      exact ⟨hsch, (Option.some.inj h).symm⟩
    · exact absurd h (by simp)

lemma normalizeUrl2_eq_some {url baseUrl o : Str} (h : normalizeUrl2 url baseUrl = some o) :
    (urlparse (urljoin baseUrl url)).scheme ≠ []
    ∧ (urlparse (urljoin baseUrl url)).netloc ≠ []
    ∧ o = (urlparse (urljoin baseUrl url)).scheme ++ chars "://"
        ++ (urlparse (urljoin baseUrl url)).netloc
        ++ (urlparse (urljoin baseUrl url)).path
        ++ (if (urlparse (urljoin baseUrl url)).query ≠ []
            then '?' :: (urlparse (urljoin baseUrl url)).query else []) := by
  unfold normalizeUrl2 at h
  split at h
  · exact absurd h (by simp)
  · dsimp only at h
    split at h
    · exact absurd h (by simp)
    · split at h
      · exact absurd h (by simp)
      · split at h
        · exact absurd h (by simp)
        · rename_i hcond
          push_neg at hcond
          exact ⟨hcond.1, hcond.2, (Option.some.inj h).symm⟩

lemma normalizeUrl1_fixed {s nl p q : Str}
    (hs : s = chars "http" ∨ s = chars "https")
    (hnl : ∀ c ∈ nl, netlocDelim c = false) (hnl0 : nl ≠ [])
    (hp0 : p ≠ []) (hp1 : p.headD ' ' = '/')
    (hpq : '?' ∉ p) (hph : '#' ∉ p) (hsemi : ';' ∉ afterLastSlash p)
    (hq : '#' ∉ q) :
    normalizeUrl1
        (s ++ ':' :: '/' :: '/' :: (nl ++ (p ++ (if q = [] then [] else '?' :: q))))
        (s ++ ':' :: '/' :: '/' :: (nl ++ (p ++ (if q = [] then [] else '?' :: q))))
      = some (s ++ ':' :: '/' :: '/' :: (nl ++ (p ++ (if q = [] then [] else '?' :: q)))) := by
  have hne : s ++ ':' :: '/' :: '/' :: (nl ++ (p ++ (if q = [] then [] else '?' :: q))) ≠ [] := by
    rcases hs with rfl | rfl <;> simp
  have htrim :
      trimWs (s ++ ':' :: '/' :: '/' :: (nl ++ (p ++ (if q = [] then [] else '?' :: q)))) ≠ [] := by
    rcases hs with rfl | rfl <;> exact trimWs_cons_ne_nil (by decide)
  have hJ := urljoin_self hs hnl hnl0 (Or.inr hp1) hpq hph hsemi hq
  have hP : urlparse (s ++ ':' :: '/' :: '/' :: (nl ++ (p ++ (if q = [] then [] else '?' :: q))))
      = ⟨s, nl, p, [], q, []⟩ :=
    urlparse_reconstruct [] hs hnl (Or.inr hp1) hpq hph hsemi hq
  unfold normalizeUrl1
  rw [if_neg (by push_neg; exact ⟨hne, htrim⟩)]
  simp only [hJ, hP]
  rw [if_pos hs]
  rw [if_neg hp0]
  congr 1
  by_cases hq0 : q = [] <;> simp [hq0, chars_colonSlashSlash]

lemma normalizeUrl2_fixed {s nl p q : Str}
    (hs : s = chars "http" ∨ s = chars "https")
    (hnl : ∀ c ∈ nl, netlocDelim c = false) (hnl0 : nl ≠ [])
    (hp1 : p = [] ∨ p.headD ' ' = '/')
    (hpq : '?' ∉ p) (hph : '#' ∉ p) (hsemi : ';' ∉ afterLastSlash p)
    (hq : '#' ∉ q) :
    normalizeUrl2
        (s ++ ':' :: '/' :: '/' :: (nl ++ (p ++ (if q = [] then [] else '?' :: q))))
        (s ++ ':' :: '/' :: '/' :: (nl ++ (p ++ (if q = [] then [] else '?' :: q))))
      = some (s ++ ':' :: '/' :: '/' :: (nl ++ (p ++ (if q = [] then [] else '?' :: q)))) := by
  have hs0 : s ≠ [] := by rcases hs with rfl | rfl <;> decide
  have hne : s ++ ':' :: '/' :: '/' :: (nl ++ (p ++ (if q = [] then [] else '?' :: q))) ≠ [] := by
    rcases hs with rfl | rfl <;> simp
  have htrim :
      trimWs (s ++ ':' :: '/' :: '/' :: (nl ++ (p ++ (if q = [] then [] else '?' :: q)))) ≠ [] := by
    rcases hs with rfl | rfl <;> exact trimWs_cons_ne_nil (by decide)
  have hJ := urljoin_self hs hnl hnl0 hp1 hpq hph hsemi hq
  have hP : urlparse (s ++ ':' :: '/' :: '/' :: (nl ++ (p ++ (if q = [] then [] else '?' :: q))))
      = ⟨s, nl, p, [], q, []⟩ :=
    urlparse_reconstruct [] hs hnl hp1 hpq hph hsemi hq
  unfold normalizeUrl2
  rw [if_neg (by push_neg; exact ⟨hne, htrim⟩)]
  simp only [hJ, hP]
  rw [if_neg (show ¬(s ≠ [] ∧ s ∉ [chars "http", chars "https"]) from by
    rcases hs with rfl | rfl <;> decide)]
  rw [if_neg (show s ∉ [chars "mailto", chars "tel", chars "javascript",
      chars "data", chars "ftp"] from by rcases hs with rfl | rfl <;> decide)]
  rw [if_neg (show ¬(s = [] ∨ nl = []) from by
    push_neg
    exact ⟨hs0, hnl0⟩)]
  congr 1
  by_cases hq0 : q = [] <;> simp [hq0, chars_colonSlashSlash]

/-- C7, counterexample: neither revision of `normalize_url` is idempotent.
The first revision maps `http:foo` (against base `https://h/`) to
`http://foo`, whose re-normalisation appends the `/` path fallback and
yields the different string `http://foo/`.  The second revision maps the
relative link `x` against the base `ftp://h/` to `ftp://h/x` — its raw-URL
scheme filter never sees the base scheme — and re-normalising that output
returns `none` because `ftp` is now filtered out. -/
theorem c7_normalize_counterexample :
    normalizeUrl1 (chars "http:foo") (chars "https://h/") = some (chars "http://foo")
    ∧ normalizeUrl1 (chars "http://foo") (chars "http://foo") = some (chars "http://foo/")
    ∧ normalizeUrl2 (chars "x") (chars "ftp://h/") = some (chars "ftp://h/x")
    ∧ normalizeUrl2 (chars "ftp://h/x") (chars "ftp://h/x") = none :=
  ⟨by decide, by decide, by decide, by decide⟩

/-- C7, amended: normalisation is idempotent on the stated domain.  When the
resolved URL has a nonempty network location, re-normalising the output of
the first revision (against any base — the output is absolute, so the base
is irrelevant; it is taken to be the output itself) returns the output
unchanged; when the resolved URL's scheme is `http` or `https`, the same
holds for the second revision.  The counterexamples show both side
conditions are necessary: revision 1 breaks on scheme-only inputs whose
resolved netloc is empty, revision 2 on non-HTTP schemes inherited from the
base. -/
theorem c7_normalize_idempotent (url baseUrl : Str) :
    ((urlparse (urljoin baseUrl url)).netloc ≠ [] →
      ∀ o, normalizeUrl1 url baseUrl = some o → normalizeUrl1 o o = some o)
    ∧ (((urlparse (urljoin baseUrl url)).scheme = chars "http"
        ∨ (urlparse (urljoin baseUrl url)).scheme = chars "https") →
      ∀ o, normalizeUrl2 url baseUrl = some o → normalizeUrl2 o o = some o) := by
  constructor
  · intro hnl0 o h
    obtain ⟨hsch, rfl⟩ := normalizeUrl1_eq_some h
    unfold urlparse at hsch hnl0 ⊢
    have hnl := urlparse_netloc_nodelim (urljoin baseUrl url) ([] : Str)
    have hpd := urlparse_path_no_delim (urljoin baseUrl url) ([] : Str)
    have hsem := urlparse_path_noSemiTail (urljoin baseUrl url) ([] : Str)
    have hqh := urlparse_query_no_hash (urljoin baseUrl url) ([] : Str)
    have hhead := urlparse_path_head hnl0
    generalize hu : urlparseD (urljoin baseUrl url) ([] : Str) = U at hsch hnl hpd hsem hqh hhead hnl0 ⊢
    obtain ⟨S, NL, P, PR, Q, F⟩ := U
    dsimp only at hsch hnl hpd hsem hqh hhead hnl0 ⊢
    by_cases hp0 : P = []
    · simp only [if_pos hp0]
      have hoeq : S ++ chars "://" ++ NL ++ [ '/' ] ++ (if Q ≠ [] then '?' :: Q else [])
          = S ++ ':' :: '/' :: '/' :: (NL ++ ([ '/' ] ++ (if Q = [] then [] else '?' :: Q))) := by
        by_cases hq0 : Q = [] <;> simp [hq0, chars_colonSlashSlash]
      rw [hoeq]
      exact normalizeUrl1_fixed hsch hnl hnl0 (by decide) (by decide) (by decide) (by decide)
        (by decide) hqh
    · simp only [if_neg hp0]
      have hp1 : P.headD ' ' = '/' := by
        rcases hhead with h1 | h1
        · exact absurd h1 hp0
        · exact h1
      have hoeq : S ++ chars "://" ++ NL ++ P ++ (if Q ≠ [] then '?' :: Q else [])
          = S ++ ':' :: '/' :: '/' :: (NL ++ (P ++ (if Q = [] then [] else '?' :: Q))) := by
        by_cases hq0 : Q = [] <;> simp [hq0, chars_colonSlashSlash]
      rw [hoeq]
      exact normalizeUrl1_fixed hsch hnl hnl0 hp0 hp1 hpd.1 hpd.2 hsem hqh
  · intro hsch o h
    obtain ⟨hs0, hnl0, rfl⟩ := normalizeUrl2_eq_some h
    unfold urlparse at hsch hs0 hnl0 ⊢
    have hnl := urlparse_netloc_nodelim (urljoin baseUrl url) ([] : Str)
    have hpd := urlparse_path_no_delim (urljoin baseUrl url) ([] : Str)
    have hsem := urlparse_path_noSemiTail (urljoin baseUrl url) ([] : Str)
    have hqh := urlparse_query_no_hash (urljoin baseUrl url) ([] : Str)
    have hhead := urlparse_path_head hnl0
    generalize hu : urlparseD (urljoin baseUrl url) ([] : Str) = U at hsch hs0 hnl hpd hsem hqh hhead hnl0 ⊢
    obtain ⟨S, NL, P, PR, Q, F⟩ := U
    dsimp only at hsch hs0 hnl hpd hsem hqh hhead hnl0 ⊢
    have hoeq : S ++ chars "://" ++ NL ++ P ++ (if Q ≠ [] then '?' :: Q else [])
        = S ++ ':' :: '/' :: '/' :: (NL ++ (P ++ (if Q = [] then [] else '?' :: Q))) := by
      by_cases hq0 : Q = [] <;> simp [hq0, chars_colonSlashSlash]
    rw [hoeq]
    exact normalizeUrl2_fixed hsch hnl hnl0 hhead hpd.1 hpd.2 hsem hqh

/-- Witness for C7: a fully-resolved HTTP URL is a fixed point of both
revisions, obtained by instantiating the amended theorem. -/
theorem c7_normalize_idempotent_witness :
    normalizeUrl1 (chars "http://h/a?x=1") (chars "http://h/a?x=1")
      = some (chars "http://h/a?x=1")
    ∧ normalizeUrl2 (chars "http://h/a?x=1") (chars "http://h/a?x=1")
      = some (chars "http://h/a?x=1") := by
  constructor
  · exact (c7_normalize_idempotent (chars "http://h/a?x=1") (chars "http://h/")).1
      (by decide) (chars "http://h/a?x=1") (by decide)
  · exact (c7_normalize_idempotent (chars "http://h/a?x=1") (chars "http://h/")).2
      (by decide) (chars "http://h/a?x=1") (by decide)

end EthioScan
